import Mathlib

/-!
Verification of the subnet arithmetic library `@cldn/ip`.

The model below is a shallow embedding of the TypeScript sources:
IP addresses are unsigned integers tagged with a family (32-bit IPv4 or
128-bit IPv6), subnets carry a numeric network address and a prefix
bit-length, and every operation mirrors the corresponding method of the
`Subnet` and `SubnetList` classes.  JavaScript `bigint` values are
modelled by `Nat` (all address values are checked non-negative and below
`2 ^ bitLength` at construction, exactly as the `IPv4`/`IPv6`
constructors do), and JavaScript exceptions (`TypeError`, `RangeError`)
are modelled by `Except JsErr`.
-/

namespace IPLib

/-- The two IP address families (the classes `IPv4` and `IPv6`). -/
inductive Fam where
  | v4 : Fam
  | v6 : Fam
deriving DecidableEq, Repr

/-- Models `IPv4.BIT_LENGTH = 32`, `IPv6.BIT_LENGTH = 128`. -/
def Fam.bitLength : Fam → Nat
  | .v4 => 32
  | .v6 => 128

/-- JavaScript exception classes thrown by the library. -/
inductive JsErr where
  | typeError : JsErr
  | rangeError : JsErr
deriving DecidableEq, Repr

/-- A subnet value: family tag, numeric network address (`address.value`)
and prefix bit length (`prefix`).  The field `plen` stands for the
source field `prefix`. -/
structure Subnet where
  fam : Fam
  addr : Nat
  plen : Nat
deriving DecidableEq, Repr

/-- Models `Subnet.netmask()` as a function of family and prefix length:
`((1n << BigInt(prefix)) - 1n) << BigInt(BIT_LENGTH - prefix)`. -/
def netmaskOf (f : Fam) (p : Nat) : Nat :=
  ((1 <<< p) - 1) <<< (f.bitLength - p)

/-- Models `this.netmask()`. -/
def Subnet.netmask (s : Subnet) : Nat :=
  netmaskOf s.fam s.plen

/-- Models `this.wildcard()`: `(1n << BigInt(BIT_LENGTH - prefix)) - 1n`. -/
def Subnet.wildcard (s : Subnet) : Nat :=
  (1 <<< (s.fam.bitLength - s.plen)) - 1

/-- Models `this.size()`: `wildcard() + 1n`. -/
def Subnet.size (s : Subnet) : Nat :=
  s.wildcard + 1

/-- Models `this.at(-1).value`, the last address of the subnet
(`address.value + (size() - 1)`). -/
def Subnet.last (s : Subnet) : Nat :=
  s.addr + (s.size - 1)

/-- The body of the `Subnet` constructor once the prefix has been range
checked: the stored address is `address.value & netmask`. -/
def mkSub (f : Fam) (a p : Nat) : Subnet :=
  ⟨f, a &&& netmaskOf f p, p⟩

/-- The `Subnet` constructor: `RangeError` when the prefix exceeds the
family bit length (a negative prefix is impossible for `Nat` inputs;
the source rejects it with the same `RangeError`). -/
def Subnet.make (f : Fam) (a p : Nat) : Except JsErr Subnet :=
  if p > f.bitLength then .error .rangeError else .ok (mkSub f a p)

/-- Models `this.contains(address)`: the `instanceof` test is the family tag
comparison, then `(address.value & netmask) === this.address.value`. -/
def Subnet.containsA (s : Subnet) (f : Fam) (v : Nat) : Bool :=
  f == s.fam && (v &&& s.netmask) == s.addr

/-- Models `this.containsSubnet(subnet)`:
`this.prefix <= subnet.prefix && this.contains(subnet.address)`. -/
def Subnet.containsSubnet (s t : Subnet) : Bool :=
  s.plen ≤ t.plen && s.containsA t.fam t.addr

/-- Models `this.isAdjacent(subnet)`: `TypeError` on a family mismatch,
otherwise `this.address + size === subnet.address ||
subnet.address + subnet.size === this.address`. -/
def Subnet.isAdjacent (s t : Subnet) : Except JsErr Bool :=
  if t.fam ≠ s.fam then .error .typeError
  else .ok (s.addr + s.size == t.addr || t.addr + t.size == s.addr)

/-- Models `this.canMerge(subnet)`: prefix lengths equal and adjacent, with the
`TypeError` of `isAdjacent` caught and turned into `false`. -/
def Subnet.canMerge (s t : Subnet) : Bool :=
  s.plen == t.plen &&
    (match s.isAdjacent t with
     | .ok b => b
     | .error _ => false)

/-- The successful branch of `Subnet.merge`: a new subnet built from the
smaller of the two addresses and `prefix - 1` (the constructor masks the
address down to the new boundary). -/
def mergeU (s t : Subnet) : Subnet :=
  mkSub s.fam (if s.addr < t.addr then s.addr else t.addr) (s.plen - 1)

/-- Models `this.merge(subnet)`: first `isAdjacent` (which throws `TypeError`
on family mismatch), then `RangeError` if not adjacent, then `TypeError`
if the prefix lengths differ, else the merged subnet. -/
def Subnet.merge (s t : Subnet) : Except JsErr Subnet :=
  match s.isAdjacent t with
  | .error e => .error e
  | .ok adj =>
    if !adj then .error .rangeError
    else if s.plen ≠ t.plen then .error .typeError
    else .ok (mergeU s t)

/-- Well-formedness of a subnet value as produced by the constructor
from a valid address: prefix within the family bit length, address below
`2 ^ bitLength`, and address aligned to the subnet size (the constructor
masks the address). -/
def Subnet.wf (s : Subnet) : Bool :=
  s.plen ≤ s.fam.bitLength &&
    s.addr < 2 ^ s.fam.bitLength &&
    s.addr % 2 ^ (s.fam.bitLength - s.plen) == 0

/-! ### Arithmetic facts about masks and sizes -/

theorem shiftLeft_as_mul (a b : Nat) : a <<< b = a * 2 ^ b :=
  Nat.shiftLeft_eq a b

theorem size_eq (s : Subnet) : s.size = 2 ^ (s.fam.bitLength - s.plen) := by
  have h : (1 : Nat) <<< (s.fam.bitLength - s.plen) = 2 ^ (s.fam.bitLength - s.plen) := by
    rw [shiftLeft_as_mul]; omega
  have hpos : 0 < 2 ^ (s.fam.bitLength - s.plen) := Nat.pos_pow_of_pos _ (by omega)
  simp only [Subnet.size, Subnet.wildcard, h]
  omega

theorem last_eq (s : Subnet) : s.last = s.addr + 2 ^ (s.fam.bitLength - s.plen) - 1 := by
  have := size_eq s
  have hpos : 0 < 2 ^ (s.fam.bitLength - s.plen) := Nat.pos_pow_of_pos _ (by omega)
  simp only [Subnet.last, this]
  omega

/-- The key mask identity: `x &&& ((2^p - 1) <<< s)` keeps exactly the
bits in positions `s ≤ i < s + p`. -/
theorem and_mask_eq (x p s : Nat) :
    x &&& (((1 <<< p) - 1) <<< s) = ((x >>> s) % 2 ^ p) <<< s := by
  apply Nat.eq_of_testBit_eq
  intro i
  have h1 : (1 : Nat) <<< p = 2 ^ p := by rw [shiftLeft_as_mul]; omega
  rw [Nat.testBit_and, h1, Nat.testBit_shiftLeft, Nat.testBit_shiftLeft,
    Nat.testBit_two_pow_sub_one, Nat.testBit_mod_two_pow, Nat.testBit_shiftRight]
  by_cases hsi : s ≤ i
  · by_cases hip : i - s < p
    · simp [hsi, hip, Nat.add_sub_cancel' hsi]
    · simp [hsi, hip]
  · simp [hsi]

theorem and_mask_arith (x p s : Nat) :
    x &&& (((1 <<< p) - 1) <<< s) = (x / 2 ^ s % 2 ^ p) * 2 ^ s := by
  rw [and_mask_eq, shiftLeft_as_mul, Nat.shiftRight_eq_div_pow]

/-- An aligned value strictly below an aligned bound leaves room for a
whole block. -/
theorem aligned_add_le (S M a : Nat) (hdvd : S ∣ M) (ha : a < M)
    (hal : a % S = 0) : a + S ≤ M := by
  obtain ⟨k, hk⟩ := hdvd
  obtain ⟨q, hq⟩ := Nat.dvd_of_mod_eq_zero hal
  subst hk
  subst hq
  have hqk : q < k := by
    by_contra hc
    push_neg at hc
    exact absurd ha (Nat.not_lt.mpr (Nat.mul_le_mul_left S hc))
  have h2 : S * (q + 1) ≤ S * k := Nat.mul_le_mul_left S hqk
  have h3 : S * (q + 1) = S * q + S := by ring
  omega

/-- Membership of `v` in the aligned block starting at `a` of size `S`. -/
theorem mem_block_iff (S a v : Nat) (hS : 0 < S) (hal : a % S = 0) :
    v / S * S = a ↔ a ≤ v ∧ v < a + S := by
  constructor
  · intro h
    have h1 : v / S * S ≤ v := Nat.div_mul_le_self v S
    have h2 : v / S * S + v % S = v := Nat.div_add_mod' v S
    have h3 : v % S < S := Nat.mod_lt v hS
    omega
  · rintro ⟨hlo, hhi⟩
    obtain ⟨q, hq⟩ := Nat.dvd_of_mod_eq_zero hal
    have hr : v = S * q + (v - a) := by omega
    have hvd : v / S = q := by
      rw [hr, Nat.mul_add_div hS]
      have : (v - a) / S = 0 := Nat.div_eq_of_lt (by omega)
      omega
    rw [hvd, Nat.mul_comm]
    exact hq.symm

theorem and_netmask_eq (f : Fam) (p : Nat) (a : Nat)
    (hp : p ≤ f.bitLength) (ha : a < 2 ^ f.bitLength) :
    a &&& netmaskOf f p = a / 2 ^ (f.bitLength - p) * 2 ^ (f.bitLength - p) := by
  unfold netmaskOf
  rw [and_mask_arith]
  congr 1
  have hsplit : 2 ^ f.bitLength = 2 ^ (f.bitLength - p) * 2 ^ p := by
    rw [← pow_add]
    congr 1
    omega
  have hlt : a / 2 ^ (f.bitLength - p) < 2 ^ p := by
    apply Nat.div_lt_of_lt_mul
    rw [← hsplit]
    exact ha
  exact Nat.mod_eq_of_lt hlt

theorem mkSub_addr (f : Fam) (a p : Nat)
    (hp : p ≤ f.bitLength) (ha : a < 2 ^ f.bitLength) :
    (mkSub f a p).addr = a / 2 ^ (f.bitLength - p) * 2 ^ (f.bitLength - p) := by
  simp only [mkSub]
  exact and_netmask_eq f p a hp ha

theorem wf_iff (s : Subnet) :
    s.wf = true ↔
      s.plen ≤ s.fam.bitLength ∧ s.addr < 2 ^ s.fam.bitLength ∧
        s.addr % 2 ^ (s.fam.bitLength - s.plen) = 0 := by
  simp [Subnet.wf, and_assoc]

theorem mkSub_wf (f : Fam) (a p : Nat)
    (hp : p ≤ f.bitLength) (ha : a < 2 ^ f.bitLength) :
    (mkSub f a p).wf = true := by
  rw [wf_iff]
  have haddr : (mkSub f a p).addr
      = a / 2 ^ (f.bitLength - p) * 2 ^ (f.bitLength - p) := mkSub_addr f a p hp ha
  have hfam : (mkSub f a p).fam = f := rfl
  have hplen : (mkSub f a p).plen = p := rfl
  rw [hfam, hplen, haddr]
  have hle : a / 2 ^ (f.bitLength - p) * 2 ^ (f.bitLength - p) ≤ a :=
    Nat.div_mul_le_self a _
  exact ⟨hp, Nat.lt_of_le_of_lt hle ha, Nat.mul_mod_left _ _⟩

/-- Masking an already aligned in-range address is the identity. -/
theorem mkSub_of_aligned (f : Fam) (a p : Nat)
    (hp : p ≤ f.bitLength) (ha : a < 2 ^ f.bitLength)
    (hal : a % 2 ^ (f.bitLength - p) = 0) :
    mkSub f a p = ⟨f, a, p⟩ := by
  have haddr := mkSub_addr f a p hp ha
  simp only [mkSub] at haddr ⊢
  congr 1
  rw [haddr]
  exact Nat.div_mul_cancel (Nat.dvd_of_mod_eq_zero hal)

theorem wf_last_lt (s : Subnet) (h : s.wf = true) : s.last < 2 ^ s.fam.bitLength := by
  rw [wf_iff] at h
  obtain ⟨hp, ha, hal⟩ := h
  rw [last_eq]
  have hdvd : 2 ^ (s.fam.bitLength - s.plen) ∣ 2 ^ s.fam.bitLength :=
    pow_dvd_pow 2 (by omega)
  have hSpos : 0 < 2 ^ (s.fam.bitLength - s.plen) := Nat.pos_pow_of_pos _ (by omega)
  have := aligned_add_le _ _ _ hdvd ha hal
  omega

/-- Interval characterisation of `contains` for in-range addresses. -/
theorem containsA_iff (s : Subnet) (f : Fam) (v : Nat)
    (hs : s.wf = true) (hv : v < 2 ^ f.bitLength) :
    s.containsA f v = true ↔ f = s.fam ∧ s.addr ≤ v ∧ v ≤ s.last := by
  rw [wf_iff] at hs
  obtain ⟨hp, ha, hal⟩ := hs
  simp only [Subnet.containsA, Bool.and_eq_true, beq_iff_eq]
  have hSpos : 0 < 2 ^ (s.fam.bitLength - s.plen) := Nat.pos_pow_of_pos _ (by omega)
  have hlast := last_eq s
  constructor
  · rintro ⟨hf, hmask⟩
    subst hf
    rw [Subnet.netmask, and_netmask_eq s.fam s.plen v hp hv] at hmask
    have := (mem_block_iff _ s.addr v hSpos hal).mp hmask
    exact ⟨rfl, by omega, by omega⟩
  · rintro ⟨hf, hlo, hhi⟩
    subst hf
    refine ⟨rfl, ?_⟩
    rw [Subnet.netmask, and_netmask_eq s.fam s.plen v hp hv]
    exact (mem_block_iff _ s.addr v hSpos hal).mpr (by omega)

/-- Interval characterisation of `containsSubnet` for well-formed
subnets. -/
theorem containsSubnet_iff (s t : Subnet) (hs : s.wf = true) (ht : t.wf = true) :
    s.containsSubnet t = true ↔
      t.fam = s.fam ∧ s.addr ≤ t.addr ∧ t.last ≤ s.last := by
  have hswf := (wf_iff s).mp hs
  have htwf := (wf_iff t).mp ht
  obtain ⟨hsp, hsa, hsal⟩ := hswf
  obtain ⟨htp, hta, htal⟩ := htwf
  have hslast := last_eq s
  have htlast := last_eq t
  have hSpos : 0 < 2 ^ (s.fam.bitLength - s.plen) := Nat.pos_pow_of_pos _ (by omega)
  have hTpos : 0 < 2 ^ (t.fam.bitLength - t.plen) := Nat.pos_pow_of_pos _ (by omega)
  simp only [Subnet.containsSubnet, Bool.and_eq_true, decide_eq_true_eq]
  rw [containsA_iff s t.fam t.addr hs hta]
  constructor
  · rintro ⟨hpl, hf, hlo, hhi⟩
    refine ⟨hf, hlo, ?_⟩
    have hfb : t.fam.bitLength = s.fam.bitLength := by rw [hf]
    have hdvd : (2 : Nat) ^ (t.fam.bitLength - t.plen) ∣ 2 ^ (s.fam.bitLength - s.plen) := by
      apply pow_dvd_pow
      omega
    have hdvdM : (2 : Nat) ^ (t.fam.bitLength - t.plen) ∣ s.addr + 2 ^ (s.fam.bitLength - s.plen) :=
      Nat.dvd_add (dvd_trans hdvd (Nat.dvd_of_mod_eq_zero hsal)) hdvd
    have hstep : t.addr + 2 ^ (t.fam.bitLength - t.plen)
        ≤ s.addr + 2 ^ (s.fam.bitLength - s.plen) :=
      aligned_add_le _ _ _ hdvdM (by omega) htal
    omega
  · rintro ⟨hf, hlo, hhi⟩
    have hfb : t.fam.bitLength = s.fam.bitLength := by rw [hf]
    have hsize : (2 : Nat) ^ (t.fam.bitLength - t.plen) ≤ 2 ^ (s.fam.bitLength - s.plen) := by
      omega
    have hexp : t.fam.bitLength - t.plen ≤ s.fam.bitLength - s.plen :=
      (Nat.pow_le_pow_iff_right (by omega)).mp hsize
    refine ⟨by omega, hf, hlo, by omega⟩

/-- Two well-formed same-family subnets are disjoint or nested
(CIDR blocks never partially overlap). -/
theorem nest_or_disjoint (s t : Subnet) (hs : s.wf = true) (ht : t.wf = true)
    (hf : t.fam = s.fam) :
    t.last < s.addr ∨ s.last < t.addr ∨
      (s.addr ≤ t.addr ∧ t.last ≤ s.last) ∨
      (t.addr ≤ s.addr ∧ s.last ≤ t.last) := by
  obtain ⟨hsp, hsa, hsal⟩ := (wf_iff s).mp hs
  obtain ⟨htp, hta, htal⟩ := (wf_iff t).mp ht
  have hfb : t.fam.bitLength = s.fam.bitLength := by rw [hf]
  have hslast := last_eq s
  have htlast := last_eq t
  have hSpos : 0 < 2 ^ (s.fam.bitLength - s.plen) := Nat.pos_pow_of_pos _ (by omega)
  have hTpos : 0 < 2 ^ (t.fam.bitLength - t.plen) := Nat.pos_pow_of_pos _ (by omega)
  by_cases hover1 : t.last < s.addr
  · exact Or.inl hover1
  by_cases hover2 : s.last < t.addr
  · exact Or.inr (Or.inl hover2)
  push_neg at hover1 hover2
  by_cases hsz : 2 ^ (t.fam.bitLength - t.plen) ≤ 2 ^ (s.fam.bitLength - s.plen)
  · -- t is the smaller block: show t ⊆ s
    refine Or.inr (Or.inr (Or.inl ?_))
    have hdvd : (2 : Nat) ^ (t.fam.bitLength - t.plen) ∣ 2 ^ (s.fam.bitLength - s.plen) := by
      apply pow_dvd_pow
      exact (Nat.pow_le_pow_iff_right (by omega)).mp hsz
    have hlo : s.addr ≤ t.addr := by
      by_contra hc
      push_neg at hc
      have : t.addr + 2 ^ (t.fam.bitLength - t.plen) ≤ s.addr :=
        aligned_add_le _ _ _ (dvd_trans hdvd (Nat.dvd_of_mod_eq_zero hsal)) hc htal
      omega
    refine ⟨hlo, ?_⟩
    have hdvdM : (2 : Nat) ^ (t.fam.bitLength - t.plen) ∣ s.addr + 2 ^ (s.fam.bitLength - s.plen) :=
      Nat.dvd_add (dvd_trans hdvd (Nat.dvd_of_mod_eq_zero hsal)) hdvd
    have : t.addr + 2 ^ (t.fam.bitLength - t.plen)
        ≤ s.addr + 2 ^ (s.fam.bitLength - s.plen) :=
      aligned_add_le _ _ _ hdvdM (by omega) htal
    omega
  · -- s is the smaller block: show s ⊆ t
    push_neg at hsz
    refine Or.inr (Or.inr (Or.inr ?_))
    have hdvd : (2 : Nat) ^ (s.fam.bitLength - s.plen) ∣ 2 ^ (t.fam.bitLength - t.plen) := by
      apply pow_dvd_pow
      exact (Nat.pow_le_pow_iff_right (by omega)).mp (Nat.le_of_lt hsz)
    have hlo : t.addr ≤ s.addr := by
      by_contra hc
      push_neg at hc
      have : s.addr + 2 ^ (s.fam.bitLength - s.plen) ≤ t.addr :=
        aligned_add_le _ _ _ (dvd_trans hdvd (Nat.dvd_of_mod_eq_zero htal)) hc hsal
      omega
    refine ⟨hlo, ?_⟩
    have hdvdM : (2 : Nat) ^ (s.fam.bitLength - s.plen) ∣ t.addr + 2 ^ (t.fam.bitLength - t.plen) :=
      Nat.dvd_add (dvd_trans hdvd (Nat.dvd_of_mod_eq_zero htal)) hdvd
    have : s.addr + 2 ^ (s.fam.bitLength - s.plen)
        ≤ t.addr + 2 ^ (t.fam.bitLength - t.plen) :=
      aligned_add_le _ _ _ hdvdM (by omega) hsal
    omega

/-! ### `Subnet.range`: greedy decomposition of an address range -/

/-- The trailing-zero loop of `Subnet.range`:
`while (tz < BIT_LENGTH && ((current >> BigInt(tz)) & 1n) === 0n) ++tz`.
`f` is the remaining iteration budget, `k` the current counter value. -/
def tzGo (cur : Nat) : Nat → Nat → Nat
  | 0, k => k
  | f + 1, k => if (cur >>> k) &&& 1 == 0 then tzGo cur f (k + 1) else k

/-- The value of `tz` after the loop, starting from `0` with at most
`blv` iterations. -/
def tzCount (blv cur : Nat) : Nat := tzGo cur blv 0

/-- The block-size loop of `Subnet.range`:
`while (remaining > 1n) { remaining >>= 1n; ++maxBlockBits }`. -/
def maxBitsGo : Nat → Nat → Nat
  | 0, _ => 0
  | f + 1, r => if r > 1 then maxBitsGo f (r >>> 1) + 1 else 0

/-- The value of `maxBlockBits` computed from `remaining = r`. -/
def maxBlockBits (r : Nat) : Nat := maxBitsGo r r

/-- The prefix chosen by one step of `Subnet.range`:
`Math.max(prefixAlign, prefixRange)` where
`prefixAlign = BIT_LENGTH - tz` and
`prefixRange = BIT_LENGTH - maxBlockBits`. -/
def greedyPlen (f : Fam) (cur e : Nat) : Nat :=
  max (f.bitLength - tzCount f.bitLength cur)
    (f.bitLength - maxBlockBits (e - cur + 1))

/-- The `while (current <= end.value)` loop of `Subnet.range`.  Each
iteration pushes `new Subnet(new AddressClass(current), prefix)` and
advances `current` by the size of that subnet.  The extra fuel argument
makes the recursion structural; `e + 1 - start` iterations always
suffice because every block has size at least 1. -/
def rangeGo (f : Fam) : Nat → Nat → Nat → List Subnet
  | 0, _, _ => []
  | fuel + 1, cur, e =>
    if cur ≤ e then
      mkSub f cur (greedyPlen f cur e) ::
        rangeGo f fuel (cur + (mkSub f cur (greedyPlen f cur e)).size) e
    else []

/-- Models `Subnet.range(start, end)`. -/
def Subnet.range (f : Fam) (s e : Nat) : List Subnet :=
  rangeGo f (e + 1 - s) s e

/-- The loop condition of the trailing-zero loop tests exactly the
`k`-th bit of `current`. -/
theorem and_one_eq_testBit (cur k : Nat) :
    ((cur >>> k) &&& 1 == 0) = !(cur.testBit k) := by
  have h1 : (cur >>> k) &&& 1 = cur / 2 ^ k % 2 := by
    rw [Nat.and_one_is_mod, Nat.shiftRight_eq_div_pow]
  rw [Nat.testBit_to_div_mod, h1]
  rcases Nat.mod_two_eq_zero_or_one (cur / 2 ^ k) with h | h <;> simp [h]

/-- The trailing-zero loop: lower and upper bounds and bit
characterisation. -/
theorem tzGo_spec (cur : Nat) : ∀ f k,
    k ≤ tzGo cur f k ∧ tzGo cur f k ≤ k + f ∧
      (∀ j, k ≤ j → j < tzGo cur f k → cur.testBit j = false) ∧
      (tzGo cur f k < k + f → cur.testBit (tzGo cur f k) = true) := by
  intro f
  induction f with
  | zero =>
    intro k
    simp [tzGo]
    omega
  | succ n ih =>
    intro k
    cases hb : cur.testBit k with
    | false =>
      have hstep : tzGo cur (n + 1) k = tzGo cur n (k + 1) := by
        have hd : cur / 2 ^ k % 2 ≠ 1 := by
          rw [Nat.testBit_to_div_mod] at hb
          simpa using hb
        have hx : cur >>> k % 2 = 0 := by
          rw [Nat.shiftRight_eq_div_pow]
          omega
        simp [tzGo, hx]
      obtain ⟨ih1, ih2, ih3, ih4⟩ := ih (k + 1)
      rw [hstep]
      refine ⟨by omega, by omega, ?_, by intro h; exact ih4 (by omega)⟩
      intro j hj1 hj2
      by_cases hjk : j = k
      · rw [hjk]; exact hb
      · exact ih3 j (by omega) hj2
    | true =>
      have hstep : tzGo cur (n + 1) k = k := by
        have hd : cur / 2 ^ k % 2 = 1 := by
          rw [Nat.testBit_to_div_mod] at hb
          simpa using hb
        have hx : cur >>> k % 2 = 1 := by
          rw [Nat.shiftRight_eq_div_pow]
          exact hd
        simp [tzGo, hx]
      rw [hstep]
      exact ⟨le_refl _, by omega, by omega, fun _ => hb⟩

/-- Low bits are all zero exactly when the value is divisible by the
corresponding power of two. -/
theorem mod_two_pow_eq_zero_iff (x t : Nat) :
    x % 2 ^ t = 0 ↔ ∀ i, i < t → x.testBit i = false := by
  constructor
  · intro h i hi
    cases hxi : x.testBit i with
    | false => rfl
    | true =>
      exfalso
      have := Nat.testBit_mod_two_pow x t i
      rw [h, Nat.zero_testBit, hxi] at this
      simp [hi] at this
  · intro h
    have hz : ∀ i, (x % 2 ^ t).testBit i = false := by
      intro i
      by_cases hi : i < t
      · rw [Nat.testBit_mod_two_pow]
        simp [hi, h i hi]
      · have hlt : x % 2 ^ t < 2 ^ i := by
          have h1 : x % 2 ^ t < 2 ^ t := Nat.mod_lt x (Nat.pos_pow_of_pos _ (by omega))
          have h2 : (2 : Nat) ^ t ≤ 2 ^ i := Nat.pow_le_pow_right (by omega) (by omega)
          omega
        exact Nat.testBit_lt_two_pow hlt
    apply Nat.eq_of_testBit_eq
    intro i
    rw [hz i, Nat.zero_testBit]

theorem tzCount_dvd (blv cur : Nat) : 2 ^ tzCount blv cur ∣ cur := by
  obtain ⟨h1, h2, h3, h4⟩ := tzGo_spec cur blv 0
  apply Nat.dvd_of_mod_eq_zero
  rw [mod_two_pow_eq_zero_iff]
  intro i hi
  exact h3 i (by omega) hi

theorem tzCount_le (blv cur : Nat) : tzCount blv cur ≤ blv := by
  unfold tzCount
  obtain ⟨h1, h2, _, _⟩ := tzGo_spec cur blv 0
  omega

theorem tzCount_max (blv cur m : Nat) (hm : m ≤ blv) (hdvd : 2 ^ m ∣ cur) :
    m ≤ tzCount blv cur := by
  unfold tzCount
  obtain ⟨h1, h2, h3, h4⟩ := tzGo_spec cur blv 0
  by_contra hc
  push_neg at hc
  have hbit : cur.testBit (tzGo cur blv 0) = true := h4 (by omega)
  have hmod : cur % 2 ^ m = 0 := Nat.mod_eq_zero_of_dvd hdvd
  rw [mod_two_pow_eq_zero_iff] at hmod
  have hfb := hmod (tzGo cur blv 0) (by omega)
  rw [hbit] at hfb
  simp at hfb

/-- The block-size loop computes the floor base-2 logarithm:
`2 ^ maxBitsGo f r ≤ r < 2 ^ (maxBitsGo f r + 1)` whenever the fuel
dominates the value. -/
theorem maxBitsGo_spec : ∀ f r, 1 ≤ r → r ≤ 2 ^ f →
    2 ^ maxBitsGo f r ≤ r ∧ r < 2 ^ (maxBitsGo f r + 1) := by
  intro f
  induction f with
  | zero =>
    intro r h1 h2
    have : r = 1 := by omega
    subst this
    simp [maxBitsGo]
  | succ n ih =>
    intro r h1 h2
    by_cases hr : r > 1
    · have hstep : maxBitsGo (n + 1) r = maxBitsGo n (r >>> 1) + 1 := by
        simp [maxBitsGo, hr]
      have hhalf : r >>> 1 = r / 2 := by
        rw [Nat.shiftRight_eq_div_pow]
      have h21 : 1 ≤ r / 2 := by omega
      have h22 : r / 2 ≤ 2 ^ n := by
        have : 2 ^ (n + 1) = 2 * 2 ^ n := by ring
        omega
      obtain ⟨ha, hb⟩ := ih (r >>> 1) (by omega) (by omega)
      rw [hhalf] at ha hb
      rw [hstep]
      constructor
      · have : 2 ^ (maxBitsGo n (r >>> 1) + 1) = 2 * 2 ^ maxBitsGo n (r >>> 1) := by ring
        rw [hhalf] at this ⊢
        omega
      · have : 2 ^ (maxBitsGo n (r >>> 1) + 1 + 1) = 2 * 2 ^ (maxBitsGo n (r >>> 1) + 1) := by
          ring
        rw [hhalf] at this ⊢
        omega
    · have : r = 1 := by omega
      subst this
      simp [maxBitsGo]

theorem maxBlockBits_spec (r : Nat) (h : 1 ≤ r) :
    2 ^ maxBlockBits r ≤ r ∧ r < 2 ^ (maxBlockBits r + 1) := by
  unfold maxBlockBits
  exact maxBitsGo_spec r r h (Nat.le_of_lt (Nat.lt_two_pow r))

/-- The prefix chosen by one greedy step is valid, the block is aligned
and fits in the remaining range, and it is the largest such block. -/
theorem greedyPlen_spec (f : Fam) (cur e : Nat) (hce : cur ≤ e)
    (he : e < 2 ^ f.bitLength) :
    greedyPlen f cur e ≤ f.bitLength ∧
      2 ^ (f.bitLength - greedyPlen f cur e) ∣ cur ∧
      2 ^ (f.bitLength - greedyPlen f cur e) ≤ e - cur + 1 ∧
      (∀ m, m ≤ f.bitLength → 2 ^ m ∣ cur → 2 ^ m ≤ e - cur + 1 →
        m ≤ f.bitLength - greedyPlen f cur e) := by
  have htzle := tzCount_le f.bitLength cur
  have htzdvd := tzCount_dvd f.bitLength cur
  have hlen1 : 1 ≤ e - cur + 1 := by omega
  obtain ⟨hmb1, hmb2⟩ := maxBlockBits_spec (e - cur + 1) hlen1
  have hmble : maxBlockBits (e - cur + 1) ≤ f.bitLength := by
    by_contra hc
    push_neg at hc
    have h1 : (2 : Nat) ^ (f.bitLength + 1) ≤ 2 ^ maxBlockBits (e - cur + 1) :=
      Nat.pow_le_pow_right (by omega) (by omega)
    have h2 : (2 : Nat) ^ (f.bitLength + 1) = 2 * 2 ^ f.bitLength := by ring
    omega
  have hmin : f.bitLength - greedyPlen f cur e
      = min (tzCount f.bitLength cur) (maxBlockBits (e - cur + 1)) := by
    unfold greedyPlen
    rcases Nat.le_total (tzCount f.bitLength cur) (maxBlockBits (e - cur + 1)) with h | h
    · rw [Nat.min_eq_left h, Nat.max_eq_left (by omega)]
      omega
    · rw [Nat.min_eq_right h, Nat.max_eq_right (by omega)]
      omega
  refine ⟨?_, ?_, ?_, ?_⟩
  · unfold greedyPlen
    omega
  · rw [hmin]
    exact dvd_trans (pow_dvd_pow 2 (by omega)) htzdvd
  · rw [hmin]
    calc 2 ^ min (tzCount f.bitLength cur) (maxBlockBits (e - cur + 1))
        ≤ 2 ^ maxBlockBits (e - cur + 1) := Nat.pow_le_pow_right (by omega) (by omega)
      _ ≤ e - cur + 1 := hmb1
  · intro m hm hdvd hcap
    rw [hmin]
    have h1 : m ≤ tzCount f.bitLength cur := tzCount_max f.bitLength cur m hm hdvd
    have h2 : m ≤ maxBlockBits (e - cur + 1) := by
      by_contra hc
      push_neg at hc
      have : (2 : Nat) ^ (maxBlockBits (e - cur + 1) + 1) ≤ 2 ^ m :=
        Nat.pow_le_pow_right (by omega) (by omega)
      omega
    omega

/-- Structural properties of the greedy loop: every emitted block is a
well-formed block of the requested family starting at or after `cur`,
the blocks cover exactly the residual range `[cur, e]`, they are
strictly ordered with no overlap, and their sizes sum to the length of
the residual range. -/
theorem rangeGo_spec (f : Fam) : ∀ fuel cur e, e < 2 ^ f.bitLength →
    e + 1 - cur ≤ fuel →
    (∀ b ∈ rangeGo f fuel cur e, b.fam = f ∧ b.wf = true ∧ cur ≤ b.addr) ∧
    (∀ x, (∃ b ∈ rangeGo f fuel cur e, b.addr ≤ x ∧ x ≤ b.last) ↔ cur ≤ x ∧ x ≤ e) ∧
    List.Chain' (fun a b => a.last < b.addr) (rangeGo f fuel cur e) ∧
    ((rangeGo f fuel cur e).map Subnet.size).sum = e + 1 - cur := by
  intro fuel
  induction fuel with
  | zero =>
    intro cur e he hfuel
    have h0 : rangeGo f 0 cur e = [] := rfl
    rw [h0]
    refine ⟨fun b hb => absurd hb (List.not_mem_nil b), ?_, List.chain'_nil, by simp; omega⟩
    intro x
    simp
    omega
  | succ n ih =>
    intro cur e he hfuel
    by_cases hce : cur ≤ e
    · have hcur : cur < 2 ^ f.bitLength := by omega
      obtain ⟨hple, hdvd, hcap, _⟩ := greedyPlen_spec f cur e hce he
      set p := greedyPlen f cur e with hp
      set S := 2 ^ (f.bitLength - p) with hS
      have hSpos : 0 < S := Nat.pos_pow_of_pos _ (by omega)
      have hblk : mkSub f cur p = ⟨f, cur, p⟩ :=
        mkSub_of_aligned f cur p hple hcur (Nat.mod_eq_zero_of_dvd hdvd)
      have hsize : (mkSub f cur p).size = S := by
        rw [hblk, size_eq]
      have hlast : (mkSub f cur p).last = cur + S - 1 := by
        rw [hblk, last_eq]
      have hwf : (mkSub f cur p).wf = true := mkSub_wf f cur p hple hcur
      have hunfold : rangeGo f (n + 1) cur e
          = mkSub f cur p :: rangeGo f n (cur + (mkSub f cur p).size) e := by
        simp [rangeGo, hce]
      have hfuel' : e + 1 - (cur + (mkSub f cur p).size) ≤ n := by
        rw [hsize]
        omega
      obtain ⟨ihA, ihB, ihC, ihD⟩ := ih (cur + (mkSub f cur p).size) e he hfuel'
      rw [hunfold]
      refine ⟨?_, ?_, ?_, ?_⟩
      · intro b hb
        rcases List.mem_cons.mp hb with hb | hb
        · subst hb
          exact ⟨by rw [hblk], hwf, by rw [hblk]⟩
        · obtain ⟨h1, h2, h3⟩ := ihA b hb
          exact ⟨h1, h2, by rw [hsize] at h3; omega⟩
      · intro x
        constructor
        · rintro ⟨b, hb, hbx1, hbx2⟩
          rcases List.mem_cons.mp hb with hb | hb
          · subst hb
            rw [hblk] at hbx1
            rw [hlast] at hbx2
            simp only at hbx1
            constructor
            · exact hbx1
            · omega
          · have := (ihB x).mp ⟨b, hb, hbx1, hbx2⟩
            rw [hsize] at this
            omega
        · rintro ⟨hx1, hx2⟩
          by_cases hxin : x ≤ cur + S - 1
          · refine ⟨mkSub f cur p, List.mem_cons_self _ _, ?_, ?_⟩
            · rw [hblk]
              exact hx1
            · rw [hlast]
              exact hxin
          · obtain ⟨b, hb, hbx⟩ := (ihB x).mpr (by rw [hsize]; omega)
            exact ⟨b, List.mem_cons_of_mem _ hb, hbx⟩
      · rw [List.chain'_cons']
        constructor
        · intro y hy
          have hymem : y ∈ rangeGo f n (cur + (mkSub f cur p).size) e :=
            List.mem_of_mem_head? hy
          obtain ⟨_, _, h3⟩ := ihA y hymem
          rw [hsize] at h3
          rw [hlast]
          omega
        · exact ihC
      · rw [List.map_cons, List.sum_cons, hsize]
        rw [hsize] at ihD
        omega
    · have hunfold : rangeGo f (n + 1) cur e = [] := by
        simp [rangeGo, hce]
      rw [hunfold]
      refine ⟨?_, ?_, ?_, ?_⟩
      · intro b hb
        exact absurd hb (List.not_mem_nil b)
      · intro x
        simp
        omega
      · exact List.chain'_nil
      · simp
        omega

/-- The result of the greedy loop does not depend on the fuel as long as
the fuel dominates the length of the remaining range. -/
theorem rangeGo_fuel_irrel (f : Fam) : ∀ f1 f2 cur e,
    e + 1 - cur ≤ f1 → e + 1 - cur ≤ f2 →
    rangeGo f f1 cur e = rangeGo f f2 cur e := by
  intro f1
  induction f1 with
  | zero =>
    intro f2 cur e h1 h2
    have hce : ¬ cur ≤ e := by omega
    cases f2 with
    | zero => rfl
    | succ m =>
      show rangeGo f 0 cur e = rangeGo f (m + 1) cur e
      simp [rangeGo, hce]
  | succ n ih =>
    intro f2 cur e h1 h2
    by_cases hce : cur ≤ e
    · cases f2 with
      | zero =>
        exfalso
        omega
      | succ m =>
        have hS : 0 < (mkSub f cur (greedyPlen f cur e)).size := by
          rw [size_eq]
          exact Nat.pos_pow_of_pos _ (by omega)
        have hrec := ih m (cur + (mkSub f cur (greedyPlen f cur e)).size) e
          (by omega) (by omega)
        simp only [rangeGo, hce, if_true]
        rw [hrec]
    · cases f2 with
      | zero =>
        simp [rangeGo, hce]
      | succ m =>
        simp [rangeGo, hce]

/-- One unfolding of `Subnet.range` when the range is nonempty: the
first block starts at `s`, has the greedy prefix, and the rest is the
range starting after it. -/
theorem range_unfold (f : Fam) (s e : Nat) (hse : s ≤ e) (he : e < 2 ^ f.bitLength) :
    Subnet.range f s e
      = ⟨f, s, greedyPlen f s e⟩ ::
        Subnet.range f (s + 2 ^ (f.bitLength - greedyPlen f s e)) e := by
  obtain ⟨hple, hdvd, hcap, _⟩ := greedyPlen_spec f s e hse he
  have hblk : mkSub f s (greedyPlen f s e) = ⟨f, s, greedyPlen f s e⟩ :=
    mkSub_of_aligned f s (greedyPlen f s e) hple (by omega) (Nat.mod_eq_zero_of_dvd hdvd)
  have hsize : (mkSub f s (greedyPlen f s e)).size = 2 ^ (f.bitLength - greedyPlen f s e) := by
    rw [hblk, size_eq]
  unfold Subnet.range
  have h1 : e + 1 - s = (e - s) + 1 := by omega
  rw [h1]
  show (if s ≤ e then
      mkSub f s (greedyPlen f s e) ::
        rangeGo f (e - s) (s + (mkSub f s (greedyPlen f s e)).size) e
    else []) = _
  rw [if_pos hse, hblk]
  have hsize2 : (⟨f, s, greedyPlen f s e⟩ : Subnet).size
      = 2 ^ (f.bitLength - greedyPlen f s e) := size_eq _
  rw [hsize2]
  congr 1
  apply rangeGo_fuel_irrel
  · have hSpos : 0 < 2 ^ (f.bitLength - greedyPlen f s e) := Nat.pos_pow_of_pos _ (by omega)
    omega
  · omega

/-- A well-formed block of family `f` contained in `[s, e]` that covers
the point `s` starts exactly at `s` and is no larger than the greedy
block at `s`. -/
theorem cover_block_at_start (f : Fam) (s e : Nat) (C : Subnet)
    (hse : s ≤ e) (he : e < 2 ^ f.bitLength)
    (hCf : C.fam = f) (hCwf : C.wf = true)
    (hlo : s ≤ C.addr) (hhi : C.last ≤ e) (hcov : C.addr ≤ s) :
    C.addr = s ∧ C.last ≤ s + 2 ^ (f.bitLength - greedyPlen f s e) - 1 := by
  obtain ⟨hCp, hCa, hCal⟩ := (wf_iff C).mp hCwf
  rw [hCf] at hCp hCa hCal
  have haddr : C.addr = s := le_antisymm hcov hlo
  have hClast : C.last = C.addr + 2 ^ (f.bitLength - C.plen) - 1 := by
    rw [last_eq C, hCf]
  have hpos : 0 < 2 ^ (f.bitLength - C.plen) := Nat.pos_pow_of_pos _ (by omega)
  refine ⟨haddr, ?_⟩
  obtain ⟨_, _, _, hmax⟩ := greedyPlen_spec f s e hse he
  have hm : f.bitLength - C.plen ≤ f.bitLength - greedyPlen f s e := by
    apply hmax
    · omega
    · rw [← haddr]
      exact Nat.dvd_of_mod_eq_zero hCal
    · omega
  have hsle : (2 : Nat) ^ (f.bitLength - C.plen)
      ≤ 2 ^ (f.bitLength - greedyPlen f s e) :=
    Nat.pow_le_pow_right (by omega) hm
  omega

/-- Minimality of the greedy decomposition: any list of well-formed
blocks of the same family whose union is exactly `[s, e]` has at least
as many elements as `Subnet.range f s e`.  The induction is on a bound
`d` for the length of the range. -/
theorem range_minimal_aux (f : Fam) : ∀ d s e (L : List Subnet), e - s ≤ d →
    s ≤ e → e < 2 ^ f.bitLength →
    (∀ b ∈ L, b.fam = f ∧ b.wf = true) →
    (∀ x, (∃ b ∈ L, b.addr ≤ x ∧ x ≤ b.last) ↔ s ≤ x ∧ x ≤ e) →
    (Subnet.range f s e).length ≤ L.length := by
  intro d
  induction d with
  | zero =>
    intro s e L hd hse he hOk hCov
    obtain ⟨C, hC, hC1, hC2⟩ := (hCov s).mpr ⟨le_refl s, hse⟩
    have hlen : 1 ≤ L.length := by
      cases L with
      | nil => exact absurd hC (List.not_mem_nil C)
      | cons a as => simp
    have heq : e = s := by omega
    subst heq
    rw [range_unfold f e e (le_refl e) he]
    obtain ⟨hple, hdvd, hcap, _⟩ := greedyPlen_spec f e e (le_refl e) he
    have hS1 : 2 ^ (f.bitLength - greedyPlen f e e) = 1 := by
      have hpos : 0 < 2 ^ (f.bitLength - greedyPlen f e e) := Nat.pos_pow_of_pos _ (by omega)
      omega
    rw [hS1]
    have hempty : Subnet.range f (e + 1) e = [] := by
      unfold Subnet.range
      have h0 : e + 1 - (e + 1) = 0 := by omega
      rw [h0]
      rfl
    rw [hempty]
    simpa using hlen
  | succ n ih =>
    intro s e L hd hse he hOk hCov
    obtain ⟨hple, hdvd, hcap, hmax⟩ := greedyPlen_spec f s e hse he
    have hSpos : 0 < 2 ^ (f.bitLength - greedyPlen f s e) := Nat.pos_pow_of_pos _ (by omega)
    obtain ⟨C, hC, hC1, hC2⟩ := (hCov s).mpr ⟨le_refl s, hse⟩
    obtain ⟨hCf, hCwf⟩ := hOk C hC
    have hCal : C.addr ≤ C.last := by
      have := last_eq C
      have hpos : 0 < 2 ^ (C.fam.bitLength - C.plen) := Nat.pos_pow_of_pos _ (by omega)
      omega
    have hClo : s ≤ C.addr :=
      ((hCov C.addr).mp ⟨C, hC, le_refl _, hCal⟩).1
    have hChi : C.last ≤ e :=
      ((hCov C.last).mp ⟨C, hC, hCal, le_refl _⟩).2
    obtain ⟨hCaddr, hClast⟩ :=
      cover_block_at_start f s e C hse he hCf hCwf hClo hChi hC1
    rw [range_unfold f s e hse he]
    by_cases hfits : s + 2 ^ (f.bitLength - greedyPlen f s e) ≤ e
    · -- the greedy block does not exhaust the range; recurse on the rest
      have hOk2 : ∀ b ∈ (L.erase C).filter
          (fun b => decide (s + 2 ^ (f.bitLength - greedyPlen f s e) ≤ b.addr)),
          b.fam = f ∧ b.wf = true := by
        intro b hb
        have hb1 : b ∈ L.erase C := List.mem_of_mem_filter hb
        exact hOk b (List.mem_of_mem_erase hb1)
      have hCov2 : ∀ x, (∃ b ∈ (L.erase C).filter
          (fun b => decide (s + 2 ^ (f.bitLength - greedyPlen f s e) ≤ b.addr)),
            b.addr ≤ x ∧ x ≤ b.last) ↔
          s + 2 ^ (f.bitLength - greedyPlen f s e) ≤ x ∧ x ≤ e := by
        intro x
        constructor
        · rintro ⟨b, hb, hb1, hb2⟩
          have hbF := List.mem_filter.mp hb
          have hbL : b ∈ L := List.mem_of_mem_erase hbF.1
          have hup := (hCov x).mp ⟨b, hbL, hb1, hb2⟩
          have hba : s + 2 ^ (f.bitLength - greedyPlen f s e) ≤ b.addr :=
            of_decide_eq_true hbF.2
          exact ⟨by omega, hup.2⟩
        · rintro ⟨hx1, hx2⟩
          obtain ⟨D, hD, hD1, hD2⟩ := (hCov x).mpr ⟨by omega, hx2⟩
          obtain ⟨hDf, hDwf⟩ := hOk D hD
          have hDal : D.addr ≤ D.last := by
            have := last_eq D
            have hpos : 0 < 2 ^ (D.fam.bitLength - D.plen) := Nat.pos_pow_of_pos _ (by omega)
            omega
          have hDlo : s ≤ D.addr :=
            ((hCov D.addr).mp ⟨D, hD, le_refl _, hDal⟩).1
          have hDhi : D.last ≤ e :=
            ((hCov D.last).mp ⟨D, hD, hDal, le_refl _⟩).2
          have hDC : D ≠ C := by
            intro hDCeq
            subst hDCeq
            omega
          have hDa : s + 2 ^ (f.bitLength - greedyPlen f s e) ≤ D.addr := by
            by_contra hc
            push_neg at hc
            have hGwf : (⟨f, s, greedyPlen f s e⟩ : Subnet).wf = true := by
              have h1 := mkSub_wf f s (greedyPlen f s e) hple (by omega)
              rwa [mkSub_of_aligned f s (greedyPlen f s e) hple (by omega)
                (Nat.mod_eq_zero_of_dvd hdvd)] at h1
            have hGaddr : (⟨f, s, greedyPlen f s e⟩ : Subnet).addr = s := rfl
            have hGlast : (⟨f, s, greedyPlen f s e⟩ : Subnet).last
                = s + 2 ^ (f.bitLength - greedyPlen f s e) - 1 := by
              rw [last_eq]
            rcases nest_or_disjoint ⟨f, s, greedyPlen f s e⟩ D hGwf hDwf (by rw [hDf])
              with h | h | h | h
            · rw [hGaddr] at h
              omega
            · rw [hGlast] at h
              omega
            · obtain ⟨h1, h2⟩ := h
              rw [hGlast] at h2
              omega
            · obtain ⟨h1, h2⟩ := h
              rw [hGaddr] at h1
              obtain ⟨hDaddr, hDlast⟩ :=
                cover_block_at_start f s e D hse he hDf hDwf hDlo hDhi h1
              omega
          refine ⟨D, ?_, hD1, hD2⟩
          apply List.mem_filter.mpr
          refine ⟨?_, by simp [hDa]⟩
          exact (List.mem_erase_of_ne hDC).mpr hD
      have hlen2 : ((L.erase C).filter
          (fun b => decide (s + 2 ^ (f.bitLength - greedyPlen f s e) ≤ b.addr))).length
          ≤ L.length - 1 := by
        have h1 := List.length_filter_le
          (fun b => decide (s + 2 ^ (f.bitLength - greedyPlen f s e) ≤ b.addr)) (L.erase C)
        have h2 : (L.erase C).length = L.length - 1 := List.length_erase_of_mem hC
        omega
      have hLpos : 1 ≤ L.length := by
        cases L with
        | nil => exact absurd hC (List.not_mem_nil C)
        | cons a as => simp
      have hrec := ih (s + 2 ^ (f.bitLength - greedyPlen f s e)) e
        ((L.erase C).filter
          (fun b => decide (s + 2 ^ (f.bitLength - greedyPlen f s e) ≤ b.addr)))
        (by omega) hfits he hOk2 hCov2
      simp only [List.length_cons]
      omega
    · -- the greedy block covers the whole remaining range
      have hempty : Subnet.range f (s + 2 ^ (f.bitLength - greedyPlen f s e)) e = [] := by
        unfold Subnet.range
        have h0 : e + 1 - (s + 2 ^ (f.bitLength - greedyPlen f s e)) = 0 := by omega
        rw [h0]
        rfl
      rw [hempty]
      have hLpos : 1 ≤ L.length := by
        cases L with
        | nil => exact absurd hC (List.not_mem_nil C)
        | cons a as => simp
      simpa using hLpos

/-- Properties of `Subnet.range` itself: instantiation of
`rangeGo_spec` at the actual fuel. -/
theorem range_spec (f : Fam) (s e : Nat) (he : e < 2 ^ f.bitLength) :
    (∀ b ∈ Subnet.range f s e, b.fam = f ∧ b.wf = true ∧ s ≤ b.addr) ∧
    (∀ x, (∃ b ∈ Subnet.range f s e, b.addr ≤ x ∧ x ≤ b.last) ↔ s ≤ x ∧ x ≤ e) ∧
    List.Chain' (fun a b => a.last < b.addr) (Subnet.range f s e) ∧
    ((Subnet.range f s e).map Subnet.size).sum = e + 1 - s :=
  rangeGo_spec f (e + 1 - s) s e he (le_refl _)

/-- The strict interval order on subnets is transitive (every subnet
contains at least its own base address). -/
theorem ltRel_trans : Transitive (fun a b : Subnet => a.last < b.addr) := by
  intro a b c hab hbc
  have h1 : b.addr ≤ b.last := by
    have := last_eq b
    have hpos : 0 < 2 ^ (b.fam.bitLength - b.plen) := Nat.pos_pow_of_pos _ (by omega)
    omega
  omega

theorem chain_lt_pairwise (L : List Subnet)
    (h : List.Chain' (fun a b => a.last < b.addr) L) :
    List.Pairwise (fun a b => a.last < b.addr) L := by
  have : IsTrans Subnet (fun a b => a.last < b.addr) :=
    ⟨fun a b c hab hbc => ltRel_trans hab hbc⟩
  exact List.chain'_iff_pairwise.mp h

/-- C3: for every same-family pair of addresses with `start <= end`,
`Subnet.range(start, end)` returns the minimal ordered list of CIDR
blocks exactly covering the inclusive range `[start, end]`: the blocks
are well formed, strictly ascending by base address and pairwise
disjoint, their union is exactly the range, and no list of well-formed
CIDR blocks exactly covering the range is shorter.  In particular,
`rangeToSubnets("192.0.2.0", "198.51.100.255")` yields 26 blocks
beginning with `192.0.2.0/23` and ending with `198.51.100.0/24`. -/
theorem range_minimal_exact_cover (f : Fam) (s e : Nat) (hse : s ≤ e)
    (he : e < 2 ^ f.bitLength) :
    (∀ b ∈ Subnet.range f s e, b.fam = f ∧ b.wf = true) ∧
    (∀ x, (∃ b ∈ Subnet.range f s e, b.addr ≤ x ∧ x ≤ b.last) ↔ s ≤ x ∧ x ≤ e) ∧
    List.Pairwise (fun a b => a.last < b.addr) (Subnet.range f s e) ∧
    (∀ L : List Subnet, (∀ b ∈ L, b.fam = f ∧ b.wf = true) →
      (∀ x, (∃ b ∈ L, b.addr ≤ x ∧ x ≤ b.last) ↔ s ≤ x ∧ x ≤ e) →
      (Subnet.range f s e).length ≤ L.length) ∧
    (Subnet.range Fam.v4 0xC0000200 0xC63364FF).length = 26 ∧
    (Subnet.range Fam.v4 0xC0000200 0xC63364FF).head?
      = some ⟨Fam.v4, 0xC0000200, 23⟩ ∧
    (Subnet.range Fam.v4 0xC0000200 0xC63364FF).getLast?
      = some ⟨Fam.v4, 0xC6336400, 24⟩ := by
  obtain ⟨hA, hB, hC, _⟩ := range_spec f s e he
  refine ⟨fun b hb => ⟨(hA b hb).1, (hA b hb).2.1⟩, hB, chain_lt_pairwise _ hC,
    ?_, by decide, by decide, by decide⟩
  intro L hOk hCov
  exact range_minimal_aux f (e - s) s e L (le_refl _) hse he hOk hCov

/-- Closed witness for `range_minimal_exact_cover`. -/
theorem range_minimal_exact_cover_witness :
    List.Pairwise (fun a b => a.last < b.addr) (Subnet.range Fam.v4 0 3) :=
  (range_minimal_exact_cover Fam.v4 0 3 (by decide) (by decide)).2.2.1

/-! ### `Subnet.subtract` -/

/-- The body of `Subnet.subtract` after the family check: empty when
`subnet.containsSubnet(this)`, `[this]` when `!this.containsSubnet(subnet)`,
otherwise the greedy decompositions of the parts of `this` below and
above `subnet`.  (The `offset(-1)`/`offset(1)` calls in the source are
guarded by the surrounding comparisons and cannot go out of range.) -/
def subtractT (s t : Subnet) : List Subnet :=
  if t.containsSubnet s then []
  else if !(s.containsSubnet t) then [s]
  else
    (if s.addr < t.addr then Subnet.range s.fam s.addr (t.addr - 1) else []) ++
      (if t.last < s.last then Subnet.range s.fam (t.last + 1) s.last else [])

/-- Models `this.subtract(subnet)`: `TypeError` on family mismatch, otherwise
the remainder pieces. -/
def Subnet.subtract (s t : Subnet) : Except JsErr (List Subnet) :=
  if t.fam ≠ s.fam then .error .typeError else .ok (subtractT s t)

/-- The number of addresses shared by two subnets (the cardinality of
the intersection of their address intervals). -/
def interCard (a b : Subnet) : Nat :=
  ((Finset.Icc a.addr a.last) ∩ (Finset.Icc b.addr b.last)).card

theorem interCard_eq (a b : Subnet) :
    interCard a b = min a.last b.last + 1 - max a.addr b.addr := by
  unfold interCard
  have hset : Finset.Icc a.addr a.last ∩ Finset.Icc b.addr b.last
      = Finset.Icc (max a.addr b.addr) (min a.last b.last) := by
    ext x
    simp only [Finset.mem_inter, Finset.mem_Icc]
    omega
  rw [hset, Nat.card_Icc]

theorem addr_le_last (s : Subnet) : s.addr ≤ s.last := by
  have := last_eq s
  have hpos : 0 < 2 ^ (s.fam.bitLength - s.plen) := Nat.pos_pow_of_pos _ (by omega)
  omega

theorem segment_bounds (f : Fam) (s0 e0 : Nat) (he : e0 < 2 ^ f.bitLength) :
    ∀ p ∈ Subnet.range f s0 e0, s0 ≤ p.addr ∧ p.last ≤ e0 := by
  intro p hp
  obtain ⟨hA, hB, _, _⟩ := range_spec f s0 e0 he
  exact ⟨(hA p hp).2.2, ((hB p.last).mp ⟨p, hp, addr_le_last p, le_refl _⟩).2⟩

/-- C5: for every two well-formed subnets `a` and `b` of the same
family, `a.subtract(b)` returns the empty list when `b` fully covers
`a`, returns `[a]` unchanged when `b` does not overlap `a`, and in
every successful case returns pieces that are pairwise non-overlapping,
none of which overlaps `b`, whose total size equals `a.size()` minus the
size of the intersection of `a` and `b`; `subtract` fails with a
`TypeError` on family mismatch. -/
theorem subtract_spec (a b : Subnet) (ha : a.wf = true) (hb : b.wf = true) :
    (b.fam ≠ a.fam → a.subtract b = .error .typeError) ∧
    (b.fam = a.fam →
      (b.containsSubnet a = true → a.subtract b = .ok []) ∧
      ((b.last < a.addr ∨ a.last < b.addr) → a.subtract b = .ok [a]) ∧
      (∀ ps, a.subtract b = .ok ps →
        List.Pairwise (fun p q => p.last < q.addr ∨ q.last < p.addr) ps ∧
        (∀ p ∈ ps, p.last < b.addr ∨ b.last < p.addr) ∧
        (ps.map Subnet.size).sum = a.size - interCard a b)) := by
  constructor
  · intro hne
    simp [Subnet.subtract, hne]
  intro hf
  have hfbl : b.fam.bitLength = a.fam.bitLength := by rw [hf]
  have hasize := size_eq a
  have hbsize := size_eq b
  have halast := last_eq a
  have hblast := last_eq b
  have haal := addr_le_last a
  have hbal := addr_le_last b
  have hapos : 0 < 2 ^ (a.fam.bitLength - a.plen) := Nat.pos_pow_of_pos _ (by omega)
  have hbpos : 0 < 2 ^ (b.fam.bitLength - b.plen) := Nat.pos_pow_of_pos _ (by omega)
  have hok : a.subtract b = .ok (subtractT a b) := by
    simp [Subnet.subtract, hf]
  refine ⟨?_, ?_, ?_⟩
  · intro hba
    rw [hok]
    simp [subtractT, hba]
  · intro hdisj
    have hba : b.containsSubnet a = false := by
      rw [Bool.eq_false_iff]
      intro hc
      obtain ⟨_, h1, h2⟩ := (containsSubnet_iff b a hb ha).mp hc
      omega
    have hab : a.containsSubnet b = false := by
      rw [Bool.eq_false_iff]
      intro hc
      obtain ⟨_, h1, h2⟩ := (containsSubnet_iff a b ha hb).mp hc
      omega
    rw [hok]
    simp [subtractT, hba, hab]
  · intro ps hps
    rw [hok] at hps
    have hpseq : ps = subtractT a b := by
      injection hps with h
      exact h.symm
    subst hpseq
    by_cases hba : b.containsSubnet a = true
    · -- b fully covers a
      obtain ⟨_, h1, h2⟩ := (containsSubnet_iff b a hb ha).mp hba
      have hzero : interCard a b = a.size := by
        rw [interCard_eq]
        omega
      simp [subtractT, hba, hzero]
    by_cases hab : a.containsSubnet b = true
    · -- the two-sided remainder
      obtain ⟨_, hlo, hhi⟩ := (containsSubnet_iff a b ha hb).mp hab
      have hbe : b.addr < 2 ^ a.fam.bitLength := by
        obtain ⟨_, h, _⟩ := (wf_iff b).mp hb
        rw [hfbl] at h
        exact h
      have hale : a.last < 2 ^ a.fam.bitLength := wf_last_lt a ha
      have hinter : interCard a b = b.last + 1 - b.addr := by
        rw [interCard_eq]
        omega
      have hnotboth : a.addr < b.addr ∨ b.last < a.last := by
        by_contra hc
        push_neg at hc
        exact hba ((containsSubnet_iff b a hb ha).mpr ⟨hf.symm, by omega, by omega⟩)
      have hsub : subtractT a b
          = (if a.addr < b.addr then Subnet.range a.fam a.addr (b.addr - 1) else []) ++
            (if b.last < a.last then Subnet.range a.fam (b.last + 1) a.last else []) := by
        simp [subtractT, hba, hab]
      rw [hsub]
      -- properties of the two segments
      by_cases hlow : a.addr < b.addr <;> by_cases hup : b.last < a.last
      · obtain ⟨hA1, hB1, hC1, hD1⟩ := range_spec a.fam a.addr (b.addr - 1) (by omega)
        obtain ⟨hA2, hB2, hC2, hD2⟩ := range_spec a.fam (b.last + 1) a.last (by omega)
        have hb1 := segment_bounds a.fam a.addr (b.addr - 1) (by omega)
        have hb2 := segment_bounds a.fam (b.last + 1) a.last (by omega)
        rw [if_pos hlow, if_pos hup]
        refine ⟨?_, ?_, ?_⟩
        · rw [List.pairwise_append]
          refine ⟨(chain_lt_pairwise _ hC1).imp Or.inl,
            (chain_lt_pairwise _ hC2).imp Or.inl, ?_⟩
          intro p hp q hq
          have h1 := (hb1 p hp).2
          have h2 := (hb2 q hq).1
          left
          omega
        · intro p hp
          rcases List.mem_append.mp hp with hp | hp
          · left
            have := (hb1 p hp).2
            omega
          · right
            have := (hb2 p hp).1
            omega
        · rw [List.map_append, List.sum_append, hD1, hD2, hinter]
          omega
      · obtain ⟨hA1, hB1, hC1, hD1⟩ := range_spec a.fam a.addr (b.addr - 1) (by omega)
        have hb1 := segment_bounds a.fam a.addr (b.addr - 1) (by omega)
        rw [if_pos hlow, if_neg hup]
        refine ⟨?_, ?_, ?_⟩
        · rw [List.append_nil]
          exact (chain_lt_pairwise _ hC1).imp Or.inl
        · intro p hp
          rw [List.append_nil] at hp
          left
          have := (hb1 p hp).2
          omega
        · rw [List.append_nil, hD1, hinter]
          omega
      · obtain ⟨hA2, hB2, hC2, hD2⟩ := range_spec a.fam (b.last + 1) a.last (by omega)
        have hb2 := segment_bounds a.fam (b.last + 1) a.last (by omega)
        rw [if_neg hlow, if_pos hup]
        refine ⟨?_, ?_, ?_⟩
        · rw [List.nil_append]
          exact (chain_lt_pairwise _ hC2).imp Or.inl
        · intro p hp
          rw [List.nil_append] at hp
          right
          have := (hb2 p hp).1
          omega
        · rw [List.nil_append, hD2, hinter]
          omega
      · omega
    · -- disjoint: neither contains the other
      have hba' : b.containsSubnet a = false := by
        rw [Bool.eq_false_iff]
        exact hba
      have hab' : a.containsSubnet b = false := by
        rw [Bool.eq_false_iff]
        exact hab
      have hdisj : b.last < a.addr ∨ a.last < b.addr := by
        rcases nest_or_disjoint a b ha hb hf with h | h | h | h
        · exact Or.inl h
        · exact Or.inr h
        · exact absurd ((containsSubnet_iff a b ha hb).mpr ⟨hf, h.1, h.2⟩)
            (by rw [hab']; simp)
        · exact absurd ((containsSubnet_iff b a hb ha).mpr ⟨hf.symm, h.1, h.2⟩)
            (by rw [hba']; simp)
      have hzero : interCard a b = 0 := by
        rw [interCard_eq]
        omega
      have hsub2 : subtractT a b = [a] := by
        simp [subtractT, hba', hab']
      rw [hsub2, hzero]
      refine ⟨List.pairwise_singleton _ _, ?_, by simp⟩
      intro p hp
      have hpa : p = a := by
        simpa using hp
      subst hpa
      rcases hdisj with h | h
      · exact Or.inr h
      · exact Or.inl h

/-- Closed witness for `subtract_spec`: subtracting `128/25` from `0/24`
leaves the single piece `0/25`, whose size accounting matches. -/
theorem subtract_spec_witness :
    ([(⟨Fam.v4, 0, 25⟩ : Subnet)].map Subnet.size).sum
      = (⟨Fam.v4, 0, 24⟩ : Subnet).size
        - interCard ⟨Fam.v4, 0, 24⟩ ⟨Fam.v4, 128, 25⟩ :=
  (((subtract_spec ⟨Fam.v4, 0, 24⟩ ⟨Fam.v4, 128, 25⟩ (by decide) (by decide)).2
    rfl).2.2 [⟨Fam.v4, 0, 25⟩] (by rfl)).2.2

/-! ### `Subnet.merge` -/

/-- C2 counterexample: the two /26 blocks at 64 and 128 are adjacent
with equal prefix length, but the merged /25 has base address 0, not
`min(64, 128) = 64`, because the constructor masks the address down to
the /25 boundary. -/
theorem merge_base_counterexample :
    (⟨Fam.v4, 64, 26⟩ : Subnet).merge ⟨Fam.v4, 128, 26⟩ = .ok ⟨Fam.v4, 0, 25⟩ ∧
      (⟨Fam.v4, 64, 26⟩ : Subnet).wf = true ∧
      (⟨Fam.v4, 128, 26⟩ : Subnet).wf = true ∧
      (0 : Nat) ≠ min 64 128 := by
  refine ⟨rfl, by decide, by decide, by decide⟩

/-- C2 (amended): for well-formed subnets, `merge` fails with a
`TypeError` on family mismatch, fails with a `RangeError` on
non-adjacent operands (this check runs before the prefix comparison),
fails with a `TypeError` on adjacent operands of differing prefix
lengths, and on same-family equal-prefix adjacent operands returns the
subnet of prefix length one less whose base address is
`min(this.baseAddress, other.baseAddress)` masked down to the new
prefix boundary (equal to the minimum exactly when the minimum is
aligned to that boundary). -/
theorem merge_spec (s t : Subnet) (hs : s.wf = true) (ht : t.wf = true) :
    (t.fam ≠ s.fam → s.merge t = .error .typeError) ∧
    (t.fam = s.fam → ¬ (s.addr + s.size = t.addr ∨ t.addr + t.size = s.addr) →
      s.merge t = .error .rangeError) ∧
    (t.fam = s.fam → (s.addr + s.size = t.addr ∨ t.addr + t.size = s.addr) →
      s.plen ≠ t.plen → s.merge t = .error .typeError) ∧
    (t.fam = s.fam → s.plen = t.plen →
      (s.addr + s.size = t.addr ∨ t.addr + t.size = s.addr) →
      ∃ m, s.merge t = .ok m ∧ m.fam = s.fam ∧ m.plen = s.plen - 1 ∧
        m.addr = min s.addr t.addr
          - min s.addr t.addr % 2 ^ (s.fam.bitLength - (s.plen - 1)) ∧
        (min s.addr t.addr % 2 ^ (s.fam.bitLength - (s.plen - 1)) = 0 →
          m.addr = min s.addr t.addr)) := by
  refine ⟨?_, ?_, ?_, ?_⟩
  · intro hne
    simp [Subnet.merge, Subnet.isAdjacent, hne]
  · intro hfe hnadj
    have hb : (s.addr + s.size == t.addr || t.addr + t.size == s.addr) = false := by
      simp only [Bool.or_eq_false_iff, beq_eq_false_iff_ne]
      push_neg at hnadj
      exact ⟨hnadj.1, hnadj.2⟩
    simp [Subnet.merge, Subnet.isAdjacent, hfe, hb]
  · intro hfe hadj hpne
    have hb : (s.addr + s.size == t.addr || t.addr + t.size == s.addr) = true := by
      rcases hadj with h | h <;> simp [h]
    simp [Subnet.merge, Subnet.isAdjacent, hfe, hb, hpne]
  · intro hfe hpe hadj
    have hb : (s.addr + s.size == t.addr || t.addr + t.size == s.addr) = true := by
      rcases hadj with h | h <;> simp [h]
    have hmerge : s.merge t = .ok (mergeU s t) := by
      simp [Subnet.merge, Subnet.isAdjacent, hfe, hb, hpe]
    obtain ⟨hsp, hsa, hsal⟩ := (wf_iff s).mp hs
    obtain ⟨htp, hta, htal⟩ := (wf_iff t).mp ht
    have hfbl : t.fam.bitLength = s.fam.bitLength := by rw [hfe]
    have hmin : (if s.addr < t.addr then s.addr else t.addr) = min s.addr t.addr := by
      rcases Nat.lt_or_ge s.addr t.addr with h | h
      · rw [if_pos h, Nat.min_eq_left (by omega)]
      · rw [if_neg (by omega), Nat.min_eq_right (by omega)]
    have hminlt : min s.addr t.addr < 2 ^ s.fam.bitLength := by
      rcases Nat.le_total s.addr t.addr with h | h
      · rw [Nat.min_eq_left h]
        exact hsa
      · rw [Nat.min_eq_right h]
        omega
    have haddr := mkSub_addr s.fam (min s.addr t.addr) (s.plen - 1) (by omega) hminlt
    have hdm := Nat.div_add_mod' (min s.addr t.addr) (2 ^ (s.fam.bitLength - (s.plen - 1)))
    refine ⟨mergeU s t, hmerge, rfl, rfl, ?_, ?_⟩
    · show (mkSub s.fam (if s.addr < t.addr then s.addr else t.addr) (s.plen - 1)).addr = _
      rw [hmin, haddr]
      omega
    · intro hal
      show (mkSub s.fam (if s.addr < t.addr then s.addr else t.addr) (s.plen - 1)).addr = _
      rw [hmin, haddr]
      omega

/-- Closed witness for `merge_spec`: merging the aligned pair
`0/25` and `128/25`. -/
theorem merge_spec_witness :
    ∃ m, (⟨Fam.v4, 0, 25⟩ : Subnet).merge ⟨Fam.v4, 128, 25⟩ = .ok m ∧
      m.fam = Fam.v4 ∧ m.plen = 25 - 1 ∧
      m.addr = min 0 128 - min 0 128 % 2 ^ (Fam.v4.bitLength - (25 - 1)) ∧
      (min 0 128 % 2 ^ (Fam.v4.bitLength - (25 - 1)) = 0 → m.addr = min 0 128) :=
  (merge_spec ⟨Fam.v4, 0, 25⟩ ⟨Fam.v4, 128, 25⟩ (by decide) (by decide)).2.2.2
    rfl rfl (Or.inl (by decide))

/-! ### `Subnet.split` -/

/-- The element count `1 << (prefix - this.prefix)` as JavaScript
computes it: `<<` converts its operands to 32-bit integers and masks the
shift count with 31, so the result is a signed 32-bit value
(`1 << 31 === -2147483648`, `1 << 32 === 1`). -/
def jsShl1Int (d : Nat) : Int :=
  if d % 32 == 31 then -(2 ^ 31) else 2 ^ (d % 32)

/-- Models `this.split(prefix)`: `RangeError` when the prefix is below the
current prefix or above the family bit length; otherwise
`Array.from({length}, (_, i) => new Subnet(address + i * size, prefix))`
where `length` is the JavaScript 32-bit shift above (`Array.from`
clamps a negative length to zero, in which case the per-piece `size` is
never used). -/
def Subnet.split (s : Subnet) (p : Nat) : Except JsErr (List Subnet) :=
  if p < s.plen ∨ s.fam.bitLength < p then .error .rangeError
  else
    let len : Int := jsShl1Int (p - s.plen)
    let arrLen : Nat := if len < 0 then 0 else len.toNat
    let step : Nat := if arrLen = 0 then 0 else s.size / arrLen
    .ok ((List.range arrLen).map (fun i => mkSub s.fam (s.addr + i * step) p))

/-- C4: evaluation of `split` at the failing inputs.  Splitting the
IPv4 subnet `0.0.0.0/0` to `/32` must produce `2^32` single-address
subnets, but the JavaScript 32-bit shift computes a length of
`1 << 32 === 1`, so the code returns a single subnet; splitting to
`/31` computes a negative length (`1 << 31`) and returns no subnets at
all instead of `2^31`. -/
theorem split_js_shift_bug :
    (⟨Fam.v4, 0, 0⟩ : Subnet).split 32 = .ok [⟨Fam.v4, 0, 32⟩] ∧
      (1 : Nat) ≠ 2 ^ (32 - 0) ∧
      (⟨Fam.v4, 0, 0⟩ : Subnet).split 31 = .ok [] ∧
      (0 : Nat) ≠ 2 ^ (31 - 0) := by
  refine ⟨rfl, by decide, rfl, by decide⟩

/-! ### `SubnetList`: the normalised subnet collection -/

/-- The comparator of `SubnetList.optimise`:
`a.BIT_LENGTH - b.BIT_LENGTH || b.prefix - a.prefix ||
(a.address.value < b.address.value ? -1 : 1)` returns a negative number
exactly in these cases. -/
def subnetLt (a b : Subnet) : Bool :=
  a.fam.bitLength < b.fam.bitLength ||
    (a.fam.bitLength == b.fam.bitLength && b.plen < a.plen) ||
    (a.fam.bitLength == b.fam.bitLength && a.plen == b.plen && a.addr < b.addr)

/-- Insertion step of the sort used to model `Array.prototype.sort` with
the comparator above.  The comparator never returns 0 and subnets with
equal key components are identical values, so any correct sort produces
this list. -/
def insertSorted (x : Subnet) : List Subnet → List Subnet
  | [] => [x]
  | y :: ys => if subnetLt x y then x :: y :: ys else y :: insertSorted x ys

/-- Models `this.#subnets.sort(...)` of `optimise`. -/
def sortSubnets (L : List Subnet) : List Subnet :=
  L.foldr insertSorted []

/-- The merge scan of `optimise`: starting from index `i = 0`, compare
the element at `i` with its successor; on `canMerge` splice both out and
put the merged subnet at `i` (so the merged subnet becomes the new left
element), else advance.  The boolean records whether any merge
happened. -/
def scanGo (x : Subnet) : List Subnet → List Subnet × Bool
  | [] => ([x], false)
  | y :: ys =>
    if x.canMerge y then ((scanGo (mergeU x y) ys).1, true)
    else (x :: (scanGo y ys).1, (scanGo y ys).2)

/-- One full pass of the merge loop over a list. -/
def scanMerge : List Subnet → List Subnet × Bool
  | [] => ([], false)
  | x :: xs => scanGo x xs

/-- Models `SubnetList.optimise()` with an explicit recursion budget: sort,
scan, and recurse while the pass merged something.  The budget makes the
recursion structural; `length + 1` iterations always suffice because
every merging pass strictly shrinks the list. -/
def optimiseFuel : Nat → List Subnet → List Subnet
  | 0, L => L
  | n + 1, L =>
    if (scanMerge (sortSubnets L)).2 then optimiseFuel n (scanMerge (sortSubnets L)).1
    else (scanMerge (sortSubnets L)).1

/-- Models `SubnetList.optimise()`. -/
def optimise (L : List Subnet) : List Subnet :=
  optimiseFuel (L.length + 1) L

/-- Models `SubnetList.hasSubnet(subnet)`. -/
def hasSubnet (L : List Subnet) (a : Subnet) : Bool :=
  L.any (fun s => s.containsSubnet a)

/-- Models `SubnetList.add(subnet)` (the state change; the boolean return value
is `!hasSubnet`): a no-op when the subnet is already covered, otherwise
replace the first member contained in the new subnet (or append), then
optimise. -/
def addSubnet (L : List Subnet) (a : Subnet) : List Subnet :=
  if hasSubnet L a then L
  else
    match L.findIdx? (fun s => a.containsSubnet s) with
    | some i => optimise (L.set i a)
    | none => optimise (L ++ [a])

/-- Models `SubnetList.add(ip)`: `add(new Subnet(ip, BIT_LENGTH))`. -/
def addIP (L : List Subnet) (f : Fam) (v : Nat) : List Subnet :=
  addSubnet L (mkSub f v f.bitLength)

/-- Models `SubnetList.add(subnets)` for another collection: add every member,
then optimise once more. -/
def addList (L M : List Subnet) : List Subnet :=
  optimise (M.foldl addSubnet L)

/-- Models `SubnetList.remove(subnet)`: delete the first member equal to the
subnet, or replace the first member that fully contains it by the
subtraction remainder; removing an absent subnet is a no-op. -/
def removeSubnet : List Subnet → Subnet → List Subnet
  | [], _ => []
  | s :: rest, a =>
    if s = a then rest
    else if s.containsSubnet a then subtractT s a ++ rest
    else s :: removeSubnet rest a

/-- One mutation of a `SubnetList` through its `add` overloads. -/
inductive AddOp where
  | sub : Subnet → AddOp
  | ip : Fam → Nat → AddOp
  | net : List Subnet → AddOp
deriving Repr

def applyOp (L : List Subnet) : AddOp → List Subnet
  | .sub s => addSubnet L s
  | .ip f v => addIP L f v
  | .net M => addList L M

/-- Run a sequence of `add` operations starting from the empty
collection (the constructor also builds its state this way). -/
def runOps (ops : List AddOp) : List Subnet :=
  ops.foldl applyOp []

/-- Validity of the inputs of an `add` operation: subnets come from the
`Subnet` constructor (so they are well formed) and addresses are
in-range values of their family. -/
def OpWF : AddOp → Prop
  | .sub s => s.wf = true
  | .ip f v => v < 2 ^ f.bitLength
  | .net M => ∀ s ∈ M, s.wf = true

/-! ### Properties of the merge scan -/

theorem canMerge_iff (s t : Subnet) :
    s.canMerge t = true ↔
      s.plen = t.plen ∧ t.fam = s.fam ∧
        (s.addr + s.size = t.addr ∨ t.addr + t.size = s.addr) := by
  unfold Subnet.canMerge Subnet.isAdjacent
  by_cases hf : t.fam = s.fam
  · simp [hf]
  · simp [hf]

theorem famOf_bitLength_inj (a b : Fam) (h : a.bitLength = b.bitLength) : a = b := by
  cases a <;> cases b <;> first | rfl | (exfalso; simp [Fam.bitLength] at h)

theorem mergeU_wf (s t : Subnet) (hs : s.wf = true) (ht : t.wf = true)
    (hm : s.canMerge t = true) : (mergeU s t).wf = true := by
  obtain ⟨hp, hf, _⟩ := (canMerge_iff s t).mp hm
  obtain ⟨hsp, hsa, _⟩ := (wf_iff s).mp hs
  obtain ⟨htp, hta, _⟩ := (wf_iff t).mp ht
  have hta' : t.addr < 2 ^ s.fam.bitLength := by
    rw [← hf]
    exact hta
  apply mkSub_wf
  · omega
  · by_cases h : s.addr < t.addr <;> simp [h] <;> omega

theorem scanGo_len (x : Subnet) : ∀ xs,
    (scanGo x xs).1.length ≤ xs.length + 1 ∧
      ((scanGo x xs).2 = true → (scanGo x xs).1.length ≤ xs.length) := by
  intro xs
  induction xs generalizing x with
  | nil => simp [scanGo]
  | cons y ys ih =>
    by_cases hm : x.canMerge y
    · have h1 := ih (mergeU x y)
      simp only [scanGo, hm, if_true]
      constructor
      · simp
        omega
      · intro _
        simp
        omega
    · have h1 := ih y
      simp only [scanGo, hm, if_false, Bool.false_eq_true]
      constructor
      · simp
        omega
      · intro h
        simp only [List.length_cons]
        have := h1.2 h
        simp
        omega

theorem scanGo_nomerge (x : Subnet) : ∀ xs, (scanGo x xs).2 = false →
    (scanGo x xs).1 = x :: xs ∧ List.Chain' (fun a b => a.canMerge b = false) (x :: xs) := by
  intro xs
  induction xs generalizing x with
  | nil =>
    intro _
    simp [scanGo]
  | cons y ys ih =>
    intro h
    by_cases hm : x.canMerge y
    · simp [scanGo, hm] at h
    · simp only [scanGo, hm, if_false, Bool.false_eq_true] at h ⊢
      obtain ⟨h1, h2⟩ := ih y h
      rw [h1]
      refine ⟨rfl, ?_⟩
      rw [List.chain'_cons]
      exact ⟨by rw [Bool.eq_false_iff]; exact hm, h2⟩

theorem scanGo_wf (x : Subnet) : ∀ xs, x.wf = true → (∀ s ∈ xs, s.wf = true) →
    ∀ s ∈ (scanGo x xs).1, s.wf = true := by
  intro xs
  induction xs generalizing x with
  | nil =>
    intro hx _ s hs
    simp [scanGo] at hs
    rw [hs]
    exact hx
  | cons y ys ih =>
    intro hx hxs s hs
    have hy : y.wf = true := hxs y (List.mem_cons_self _ _)
    have hys : ∀ s ∈ ys, s.wf = true := fun s hs => hxs s (List.mem_cons_of_mem _ hs)
    by_cases hm : x.canMerge y
    · simp only [scanGo, hm, if_true] at hs
      exact ih (mergeU x y) (mergeU_wf x y hx hy hm) hys s hs
    · simp only [scanGo, hm, if_false, Bool.false_eq_true] at hs
      rcases List.mem_cons.mp hs with hs | hs
      · rw [hs]
        exact hx
      · exact ih y hy hys s hs

/-! ### Properties of the sort -/

/-- The non-strict order induced by the comparator (the comparator
returns a non-negative number on `(b, a)`). -/
def SLe (a b : Subnet) : Prop := subnetLt b a = false

theorem subnetLt_false_iff (a b : Subnet) :
    subnetLt b a = false ↔
      (¬ b.fam.bitLength < a.fam.bitLength) ∧
      (b.fam.bitLength = a.fam.bitLength → ¬ a.plen < b.plen) ∧
      (b.fam.bitLength = a.fam.bitLength → b.plen = a.plen → ¬ b.addr < a.addr) := by
  simp [subnetLt]
  omega

theorem SLe_trans : Transitive SLe := by
  intro a b c hab hbc
  rw [SLe, subnetLt_false_iff] at *
  omega

theorem SLe_total (a b : Subnet) : SLe a b ∨ SLe b a := by
  rw [SLe, SLe, subnetLt_false_iff, subnetLt_false_iff]
  omega

theorem SLe_antisymm (a b : Subnet) (h1 : SLe a b) (h2 : SLe b a) : a = b := by
  rw [SLe, subnetLt_false_iff] at h1 h2
  have hbl : a.fam.bitLength = b.fam.bitLength := by omega
  have hfam : a.fam = b.fam := famOf_bitLength_inj _ _ hbl
  have hplen : a.plen = b.plen := by omega
  have haddr : a.addr = b.addr := by omega
  obtain ⟨af, aa, ap⟩ := a
  obtain ⟨bf, ba, bp⟩ := b
  simp only at hfam hplen haddr
  rw [hfam, hplen, haddr]

theorem subnetLt_le (x y : Subnet) (h : subnetLt x y = true) : SLe x y := by
  rw [SLe, subnetLt_false_iff]
  simp [subnetLt] at h
  omega

theorem subnetLt_not_le (x y : Subnet) (h : subnetLt x y = false) : SLe y x := h

theorem insertSorted_perm (x : Subnet) : ∀ l, List.Perm (insertSorted x l) (x :: l) := by
  intro l
  induction l with
  | nil => simp [insertSorted]
  | cons y ys ih =>
    by_cases h : subnetLt x y
    · simp [insertSorted, h]
    · simp only [insertSorted, h, if_false, Bool.false_eq_true]
      exact List.Perm.trans (List.Perm.cons y ih) (List.Perm.swap x y ys)

theorem sortSubnets_perm (L : List Subnet) : List.Perm (sortSubnets L) L := by
  induction L with
  | nil => rfl
  | cons y ys ih =>
    exact List.Perm.trans (insertSorted_perm y (sortSubnets ys)) (List.Perm.cons y ih)

theorem insertSorted_sorted (x : Subnet) : ∀ l, List.Pairwise SLe l →
    List.Pairwise SLe (insertSorted x l) := by
  intro l
  induction l with
  | nil =>
    intro _
    simp [insertSorted]
  | cons y ys ih =>
    intro hp
    obtain ⟨hy, hys⟩ := List.pairwise_cons.mp hp
    by_cases h : subnetLt x y
    · simp only [insertSorted, h, if_true]
      rw [List.pairwise_cons]
      refine ⟨?_, hp⟩
      intro z hz
      rcases List.mem_cons.mp hz with hz | hz
      · rw [hz]
        exact subnetLt_le x y h
      · exact SLe_trans (subnetLt_le x y h) (hy z hz)
    · simp only [insertSorted, h, if_false, Bool.false_eq_true]
      rw [List.pairwise_cons]
      refine ⟨?_, ih hys⟩
      intro z hz
      have hz2 := (insertSorted_perm x ys).mem_iff.mp hz
      rcases List.mem_cons.mp hz2 with hz2 | hz2
      · rw [hz2]
        exact subnetLt_not_le x y (by rw [Bool.eq_false_iff]; exact h)
      · exact hy z hz2

theorem sortSubnets_sorted (L : List Subnet) : List.Pairwise SLe (sortSubnets L) := by
  induction L with
  | nil => simp [sortSubnets]
  | cons y ys ih => exact insertSorted_sorted y _ ih

/-! ### At the fixed point no pair anywhere in the list can merge -/

/-- In a sorted list whose consecutive pairs cannot merge, the head
cannot merge with any later element either: two equal-prefix adjacent
blocks must be consecutive in the sort order (any block between them
shares their family and prefix and its aligned address can only be one
of the two endpoints). -/
theorem head_nomerge : ∀ (rest : List Subnet) (a : Subnet), a.wf = true →
    (∀ s ∈ rest, s.wf = true) →
    List.Pairwise SLe (a :: rest) →
    List.Chain' (fun u v => u.canMerge v = false) (a :: rest) →
    ∀ t ∈ rest, a.canMerge t = false := by
  intro rest
  induction rest with
  | nil =>
    intro a _ _ _ _ t ht
    simp at ht
  | cons b rest2 ih =>
    intro a hwa hwrest hpair hchain t ht
    have hwb : b.wf = true := hwrest b (List.mem_cons_self _ _)
    obtain ⟨hrelA, hpairBC⟩ := List.pairwise_cons.mp hpair
    obtain ⟨hlinkAB, hchainBC⟩ := List.chain'_cons.mp hchain
    rcases List.mem_cons.mp ht with hteq | ht2
    · rw [hteq]
      exact hlinkAB
    · by_contra hc
      rw [Bool.eq_false_iff, Ne, Bool.not_eq_true, Bool.not_eq_false] at hc
      obtain ⟨hp, hf, hadj⟩ := (canMerge_iff a t).mp hc
      have hwt : t.wf = true := hwrest t (List.mem_cons_of_mem _ ht2)
      obtain ⟨hap, haa, haal⟩ := (wf_iff a).mp hwa
      obtain ⟨hbp, hba, hbal⟩ := (wf_iff b).mp hwb
      obtain ⟨htp, hta, htal⟩ := (wf_iff t).mp hwt
      have hAB : SLe a b := hrelA b (List.mem_cons_self _ _)
      have hAT : SLe a t := hrelA t (List.mem_cons_of_mem _ ht2)
      have hBT : SLe b t := (List.pairwise_cons.mp hpairBC).1 t ht2
      rw [SLe, subnetLt_false_iff] at hAB hAT hBT
      have hblT : t.fam.bitLength = a.fam.bitLength := by rw [hf]
      have hblB : b.fam.bitLength = a.fam.bitLength := by omega
      have hfamB : b.fam = a.fam := famOf_bitLength_inj _ _ hblB
      have hplB : b.plen = a.plen := by omega
      have haddrAB : a.addr ≤ b.addr := by omega
      have haddrBT : b.addr ≤ t.addr := by omega
      have hsizeA := size_eq a
      have hsizeB := size_eq b
      have hsizeT := size_eq t
      rw [hblB, hplB] at hsizeB
      rw [hblT, ← hp] at hsizeT
      have hSpos : 0 < 2 ^ (a.fam.bitLength - a.plen) := Nat.pos_pow_of_pos _ (by omega)
      -- adjacency can only be rightward in sort order
      have hadj2 : a.addr + 2 ^ (a.fam.bitLength - a.plen) = t.addr := by
        rcases hadj with h | h
        · rw [hsizeA] at h
          exact h
        · rw [hsizeT] at h
          omega
      -- the aligned middle element is one of the two endpoints
      have hbal2 : b.addr % 2 ^ (a.fam.bitLength - a.plen) = 0 := by
        rw [hblB, hplB] at hbal
        exact hbal
      have hbcases : b.addr = a.addr ∨ b.addr = t.addr := by
        by_cases hlt : a.addr < b.addr
        · right
          have := aligned_add_le (2 ^ (a.fam.bitLength - a.plen)) b.addr a.addr
            (Nat.dvd_of_mod_eq_zero hbal2) hlt haal
          omega
        · left
          omega
      rcases hbcases with hbeq | hbeq
      · -- a and b share a base: then b is adjacent to t; recurse
        have hmBT : b.canMerge t = true := by
          rw [canMerge_iff]
          refine ⟨by omega, by rw [hf, hfamB], Or.inl ?_⟩
          rw [hsizeB, hbeq, hadj2]
        have := ih b hwb (fun s hs => hwrest s (List.mem_cons_of_mem _ hs))
          hpairBC hchainBC t ht2
        rw [hmBT] at this
        exact Bool.noConfusion this
      · -- b sits exactly after a: a and b are adjacent, contradiction
        have hmAB : a.canMerge b = true := by
          rw [canMerge_iff]
          refine ⟨by omega, hfamB, Or.inl ?_⟩
          rw [hsizeA, hbeq, hadj2]
        rw [hmAB] at hlinkAB
        exact Bool.noConfusion hlinkAB

/-- A sorted pass that performs no merge leaves no mergeable pair
anywhere in the list. -/
theorem sorted_nomerge_pairwise : ∀ (L : List Subnet),
    (∀ s ∈ L, s.wf = true) →
    List.Pairwise SLe L →
    List.Chain' (fun u v => u.canMerge v = false) L →
    List.Pairwise (fun u v => u.canMerge v = false) L := by
  intro L
  induction L with
  | nil =>
    intro _ _ _
    exact List.Pairwise.nil
  | cons a rest ih =>
    intro hwf hpair hchain
    rw [List.pairwise_cons]
    refine ⟨?_, ?_⟩
    · exact head_nomerge rest a (hwf a (List.mem_cons_self _ _))
        (fun s hs => hwf s (List.mem_cons_of_mem _ hs)) hpair hchain
    · exact ih (fun s hs => hwf s (List.mem_cons_of_mem _ hs))
        (List.pairwise_cons.mp hpair).2 (List.chain'_cons'.mp hchain).2

/-- Within its fuel bound, the normalisation pass reaches a state where
no two members anywhere in the list can merge, and all members remain
well formed. -/
theorem optimiseFuel_spec : ∀ n (L : List Subnet), L.length < n →
    (∀ s ∈ L, s.wf = true) →
    List.Pairwise (fun u v => u.canMerge v = false) (optimiseFuel n L) ∧
    (∀ s ∈ optimiseFuel n L, s.wf = true) := by
  intro n
  induction n with
  | zero =>
    intro L hlen _
    omega
  | succ m ih =>
    intro L hlen hwf
    have hperm := sortSubnets_perm L
    have hwfS : ∀ s ∈ sortSubnets L, s.wf = true :=
      fun s hs => hwf s (hperm.mem_iff.mp hs)
    have hlenS : (sortSubnets L).length = L.length := hperm.length_eq
    by_cases hflag : (scanMerge (sortSubnets L)).2 = true
    · rw [optimiseFuel, if_pos hflag]
      rcases hS : sortSubnets L with _ | ⟨x, xs⟩
      · rw [hS] at hflag
        simp [scanMerge] at hflag
      · rw [hS] at hflag hwfS hlenS
        have hflag2 : (scanGo x xs).2 = true := hflag
        have hlen2 := (scanGo_len x xs).2 hflag2
        have hxs : xs.length + 1 = L.length := by
          simpa using hlenS
        apply ih
        · show (scanGo x xs).1.length < m
          omega
        · show ∀ s ∈ (scanGo x xs).1, s.wf = true
          exact scanGo_wf x xs (hwfS x (List.mem_cons_self _ _))
            (fun s hs => hwfS s (List.mem_cons_of_mem _ hs))
    · rw [optimiseFuel, if_neg hflag]
      rcases hS : sortSubnets L with _ | ⟨x, xs⟩
      · constructor
        · exact List.Pairwise.nil
        · intro s hs
          simp [scanMerge] at hs
      · rw [hS] at hflag hwfS
        have hflag2 : (scanGo x xs).2 = false := by
          rw [Bool.eq_false_iff]
          exact hflag
        obtain ⟨heq, hchain⟩ := scanGo_nomerge x xs hflag2
        show List.Pairwise _ (scanGo x xs).1 ∧ ∀ s ∈ (scanGo x xs).1, s.wf = true
        rw [heq]
        have hsorted : List.Pairwise SLe (x :: xs) := by
          rw [← hS]
          exact sortSubnets_sorted L
        exact ⟨sorted_nomerge_pairwise (x :: xs) hwfS hsorted hchain, hwfS⟩

/-- The result of the bounded normalisation does not depend on the fuel
once the fuel exceeds the member count. -/
theorem optimiseFuel_irrel : ∀ n m (L : List Subnet), L.length < n → L.length < m →
    optimiseFuel n L = optimiseFuel m L := by
  intro n
  induction n with
  | zero =>
    intro m L h1 _
    omega
  | succ n' ih =>
    intro m L h1 h2
    cases m with
    | zero => omega
    | succ m' =>
      by_cases hflag : (scanMerge (sortSubnets L)).2 = true
      · rw [optimiseFuel, if_pos hflag, optimiseFuel, if_pos hflag]
        have hperm := sortSubnets_perm L
        have hlenS : (sortSubnets L).length = L.length := hperm.length_eq
        rcases hS : sortSubnets L with _ | ⟨x, xs⟩
        · rw [hS] at hflag
          simp [scanMerge] at hflag
        · rw [hS] at hflag hlenS
          have hflag2 : (scanGo x xs).2 = true := hflag
          have hlen2 := (scanGo_len x xs).2 hflag2
          have hxs : xs.length + 1 = L.length := by
            simpa using hlenS
          apply ih
          · show (scanGo x xs).1.length < n'
            omega
          · show (scanGo x xs).1.length < m'
            omega
      · rw [optimiseFuel, if_neg hflag, optimiseFuel, if_neg hflag]

/-- C10: the recursive normalisation pass `optimise` terminates with a
recursion depth bounded by the member count: any fuel beyond the list
length yields the same result as the canonical `length + 1` budget, and
the resulting fixed point has no mergeable pair left (for well-formed
members). -/
theorem optimise_terminates_fixpoint (L : List Subnet)
    (hwf : ∀ s ∈ L, s.wf = true) :
    (∀ fuel, L.length < fuel → optimiseFuel fuel L = optimise L) ∧
    List.Pairwise (fun u v => u.canMerge v = false) (optimise L) :=
  ⟨fun fuel hf => optimiseFuel_irrel fuel (L.length + 1) L hf (by omega),
    (optimiseFuel_spec (L.length + 1) L (by omega) hwf).1⟩

/-- Closed witness for `optimise_terminates_fixpoint`. -/
theorem optimise_terminates_fixpoint_witness :
    optimiseFuel 5 [(⟨Fam.v4, 0, 25⟩ : Subnet), ⟨Fam.v4, 128, 25⟩]
      = optimise [⟨Fam.v4, 0, 25⟩, ⟨Fam.v4, 128, 25⟩] :=
  (optimise_terminates_fixpoint [⟨Fam.v4, 0, 25⟩, ⟨Fam.v4, 128, 25⟩]
    (by decide)).1 5 (by decide)

/-! ### The collection invariant under `add` -/

theorem addSubnet_wf (L : List Subnet) (a : Subnet)
    (hw : ∀ s ∈ L, s.wf = true) (ha : a.wf = true) :
    ∀ s ∈ addSubnet L a, s.wf = true := by
  unfold addSubnet
  by_cases hhas : hasSubnet L a = true
  · rw [if_pos hhas]
    exact hw
  · rw [if_neg hhas]
    rcases hidx : L.findIdx? (fun s => a.containsSubnet s) with _ | i
    · intro s hs
      refine (optimiseFuel_spec ((L ++ [a]).length + 1) (L ++ [a]) (by omega) ?_).2 s hs
      intro t ht
      rcases List.mem_append.mp ht with ht | ht
      · exact hw t ht
      · rw [List.mem_singleton.mp ht]
        exact ha
    · intro s hs
      refine (optimiseFuel_spec ((L.set i a).length + 1) (L.set i a) (by omega) ?_).2 s hs
      intro t ht
      rcases List.mem_or_eq_of_mem_set ht with ht | ht
      · exact hw t ht
      · rw [ht]
        exact ha

theorem addSubnet_nomerge (L : List Subnet) (a : Subnet)
    (hP : List.Pairwise (fun u v => u.canMerge v = false) L)
    (hw : ∀ s ∈ L, s.wf = true) (ha : a.wf = true) :
    List.Pairwise (fun u v => u.canMerge v = false) (addSubnet L a) := by
  unfold addSubnet
  by_cases hhas : hasSubnet L a = true
  · rw [if_pos hhas]
    exact hP
  · rw [if_neg hhas]
    rcases hidx : L.findIdx? (fun s => a.containsSubnet s) with _ | i
    · refine (optimiseFuel_spec ((L ++ [a]).length + 1) (L ++ [a]) (by omega) ?_).1
      intro t ht
      rcases List.mem_append.mp ht with ht | ht
      · exact hw t ht
      · rw [List.mem_singleton.mp ht]
        exact ha
    · refine (optimiseFuel_spec ((L.set i a).length + 1) (L.set i a) (by omega) ?_).1
      intro t ht
      rcases List.mem_or_eq_of_mem_set ht with ht | ht
      · exact hw t ht
      · rw [ht]
        exact ha

theorem foldl_addSubnet_wf : ∀ (M L : List Subnet), (∀ s ∈ L, s.wf = true) →
    (∀ s ∈ M, s.wf = true) → ∀ s ∈ M.foldl addSubnet L, s.wf = true := by
  intro M
  induction M with
  | nil =>
    intro L hL _
    exact hL
  | cons m ms ih =>
    intro L hL hM
    exact ih (addSubnet L m)
      (addSubnet_wf L m hL (hM m (List.mem_cons_self _ _)))
      (fun s hs => hM s (List.mem_cons_of_mem _ hs))

theorem applyOp_wf (L : List Subnet) (op : AddOp)
    (hw : ∀ s ∈ L, s.wf = true) (hop : OpWF op) :
    ∀ s ∈ applyOp L op, s.wf = true := by
  cases op with
  | sub a => exact addSubnet_wf L a hw hop
  | ip f v =>
    exact addSubnet_wf L (mkSub f v f.bitLength) hw
      (mkSub_wf f v f.bitLength (le_refl _) hop)
  | net M =>
    intro s hs
    refine (optimiseFuel_spec ((M.foldl addSubnet L).length + 1) _ (by omega) ?_).2 s hs
    exact foldl_addSubnet_wf M L hw hop

theorem applyOp_nomerge (L : List Subnet) (op : AddOp)
    (hP : List.Pairwise (fun u v => u.canMerge v = false) L)
    (hw : ∀ s ∈ L, s.wf = true) (hop : OpWF op) :
    List.Pairwise (fun u v => u.canMerge v = false) (applyOp L op) := by
  cases op with
  | sub a => exact addSubnet_nomerge L a hP hw hop
  | ip f v =>
    exact addSubnet_nomerge L (mkSub f v f.bitLength) hP hw
      (mkSub_wf f v f.bitLength (le_refl _) hop)
  | net M =>
    refine (optimiseFuel_spec ((M.foldl addSubnet L).length + 1) _ (by omega) ?_).1
    exact foldl_addSubnet_wf M L hw hop

theorem foldl_applyOp_inv : ∀ (ops : List AddOp) (L : List Subnet),
    (∀ op ∈ ops, OpWF op) →
    List.Pairwise (fun u v => u.canMerge v = false) L →
    (∀ s ∈ L, s.wf = true) →
    List.Pairwise (fun u v => u.canMerge v = false) (ops.foldl applyOp L) ∧
      (∀ s ∈ ops.foldl applyOp L, s.wf = true) := by
  intro ops
  induction ops with
  | nil =>
    intro L _ hP hw
    exact ⟨hP, hw⟩
  | cons op ops' ih =>
    intro L hops hP hw
    have hop : OpWF op := hops op (List.mem_cons_self _ _)
    exact ih (applyOp L op) (fun o ho => hops o (List.mem_cons_of_mem _ ho))
      (applyOp_nomerge L op hP hw hop) (applyOp_wf L op hw hop)

/-- C1 counterexample: from the empty collection, adding `0.0.0.0/26`,
`0.0.0.192/26` and then `0.0.0.0/24` (all well formed) leaves the
member `0.0.0.192/26` fully contained in the member `0.0.0.0/24`: `add`
replaces only the first member contained in the new subnet, so the
containment/overlap half of the claimed invariant fails. -/
theorem subnetlist_containment_counterexample :
    runOps [.sub ⟨Fam.v4, 0, 26⟩, .sub ⟨Fam.v4, 192, 26⟩, .sub ⟨Fam.v4, 0, 24⟩]
        = [⟨Fam.v4, 192, 26⟩, ⟨Fam.v4, 0, 24⟩] ∧
      (⟨Fam.v4, 0, 24⟩ : Subnet).containsSubnet ⟨Fam.v4, 192, 26⟩ = true ∧
      (⟨Fam.v4, 0, 26⟩ : Subnet).wf = true ∧
      (⟨Fam.v4, 192, 26⟩ : Subnet).wf = true ∧
      (⟨Fam.v4, 0, 24⟩ : Subnet).wf = true := by
  refine ⟨rfl, by decide, by decide, by decide, by decide⟩

/-- C1 (amended): after every sequence of valid `add` mutations
(subnets, single addresses, whole collections) starting from the empty
collection, no two members of the collection can merge: no two members
are adjacent with equal prefix length (any such pair is merged into one
member of `prefixLength - 1` by the normalisation pass).  The
containment/overlap half of the original claim does not hold (see the
counterexample): a member may remain contained in a later-added larger
member because `add` supersedes only the first contained member. -/
theorem subnetlist_add_no_mergeable_pair (ops : List AddOp)
    (hops : ∀ op ∈ ops, OpWF op) :
    List.Pairwise (fun u v => u.canMerge v = false) (runOps ops) :=
  (foldl_applyOp_inv ops [] hops List.Pairwise.nil (by simp)).1

/-- Closed witness for `subnetlist_add_no_mergeable_pair`. -/
theorem subnetlist_add_no_mergeable_pair_witness :
    List.Pairwise (fun u v => u.canMerge v = false)
      (runOps [.sub ⟨Fam.v4, 0, 25⟩, .sub ⟨Fam.v4, 128, 25⟩]) := by
  apply subnetlist_add_no_mergeable_pair
  intro op hop
  rcases List.mem_cons.mp hop with h | h
  · rw [h]
    show (⟨Fam.v4, 0, 25⟩ : Subnet).wf = true
    decide
  · rw [List.mem_singleton.mp h]
    show (⟨Fam.v4, 128, 25⟩ : Subnet).wf = true
    decide

/-! ### `add` followed by `remove` -/

theorem optimiseFuel_len_le : ∀ n (L : List Subnet),
    (optimiseFuel n L).length ≤ L.length := by
  intro n
  induction n with
  | zero =>
    intro L
    exact le_refl _
  | succ m ih =>
    intro L
    have hlenS : (sortSubnets L).length = L.length := (sortSubnets_perm L).length_eq
    by_cases hflag : (scanMerge (sortSubnets L)).2 = true
    · rw [optimiseFuel, if_pos hflag]
      rcases hS : sortSubnets L with _ | ⟨x, xs⟩
      · rw [hS] at hflag
        simp [scanMerge] at hflag
      · rw [hS] at hflag hlenS
        have hlen2 := (scanGo_len x xs).2 hflag
        calc (optimiseFuel m (scanMerge (x :: xs)).1).length
            ≤ (scanMerge (x :: xs)).1.length := ih _
          _ ≤ xs.length := hlen2
          _ ≤ L.length := by simp at hlenS; omega
    · rw [optimiseFuel, if_neg hflag]
      rcases hS : sortSubnets L with _ | ⟨x, xs⟩
      · simp [scanMerge]
      · rw [hS] at hflag hlenS
        have hflag2 : (scanGo x xs).2 = false := by
          rw [Bool.eq_false_iff]
          exact hflag
        have heq := (scanGo_nomerge x xs hflag2).1
        show (scanGo x xs).1.length ≤ L.length
        rw [heq]
        simp at hlenS ⊢
        omega

/-- A collection left unchanged by `optimise` is sorted (the first pass
must have performed no merge, so the result is the sorted input). -/
theorem optimise_eq_self_sorted (C : List Subnet) (h : optimise C = C) :
    List.Pairwise SLe C ∧ sortSubnets C = C := by
  have hlenS : (sortSubnets C).length = C.length := (sortSubnets_perm C).length_eq
  by_cases hflag : (scanMerge (sortSubnets C)).2 = true
  · exfalso
    rcases hS : sortSubnets C with _ | ⟨x, xs⟩
    · rw [hS] at hflag
      simp [scanMerge] at hflag
    · rw [hS] at hflag hlenS
      have hlen2 := (scanGo_len x xs).2 hflag
      have hshort : (optimise C).length < C.length := by
        unfold optimise
        rw [optimiseFuel, if_pos (by rw [hS]; exact hflag)]
        calc (optimiseFuel (C.length + 1 - 1) (scanMerge (sortSubnets C)).1).length
            ≤ (scanMerge (sortSubnets C)).1.length := optimiseFuel_len_le _ _
          _ ≤ xs.length := by rw [hS]; exact hlen2
          _ < C.length := by simp at hlenS; omega
      rw [h] at hshort
      omega
  · have heq2 : optimise C = (scanMerge (sortSubnets C)).1 := by
      unfold optimise
      rw [optimiseFuel, if_neg hflag]
    rcases hS : sortSubnets C with _ | ⟨x, xs⟩
    · have : C = [] := by
        have := (sortSubnets_perm C).length_eq
        rw [hS] at this
        cases C with
        | nil => rfl
        | cons a as => simp at this
      rw [this]
      exact ⟨List.Pairwise.nil, rfl⟩
    · rw [hS] at hflag heq2
      have hflag2 : (scanGo x xs).2 = false := by
        rw [Bool.eq_false_iff]
        exact hflag
      have heq3 := (scanGo_nomerge x xs hflag2).1
      have hC : C = x :: xs := by
        rw [← h, heq2]
        exact heq3
      constructor
      · rw [hC, ← hS]
        exact sortSubnets_sorted C
      · exact hC.symm

/-- Sorting with one extra appended element inserts that element into
the already sorted rest. -/
theorem sortSubnets_append_single (C : List Subnet) (s : Subnet)
    (hsorted : List.Pairwise SLe C) :
    sortSubnets (C ++ [s]) = insertSorted s C := by
  haveI : IsAntisymm Subnet SLe := ⟨SLe_antisymm⟩
  have hperm : List.Perm (sortSubnets (C ++ [s])) (insertSorted s C) :=
    List.Perm.trans (sortSubnets_perm (C ++ [s]))
      (List.Perm.trans (List.perm_append_singleton s C) (insertSorted_perm s C).symm)
  have hs1 : List.Sorted SLe (sortSubnets (C ++ [s])) := sortSubnets_sorted _
  have hs2 : List.Sorted SLe (insertSorted s C) := insertSorted_sorted s C hsorted
  exact List.eq_of_perm_of_sorted hperm hs1 hs2

theorem insertSorted_decomp (s : Subnet) : ∀ C : List Subnet,
    ∃ C1 C2, C = C1 ++ C2 ∧ insertSorted s C = C1 ++ s :: C2 := by
  intro C
  induction C with
  | nil => exact ⟨[], [], rfl, rfl⟩
  | cons y ys ih =>
    by_cases h : subnetLt s y
    · exact ⟨[], y :: ys, rfl, by simp [insertSorted, h]⟩
    · obtain ⟨C1, C2, h1, h2⟩ := ih
      refine ⟨y :: C1, C2, by rw [h1]; rfl, ?_⟩
      simp only [insertSorted, h, if_false, Bool.false_eq_true, List.cons_append]
      rw [h2]

theorem findIdx?_none_of_all_false (p : Subnet → Bool) : ∀ L : List Subnet,
    (∀ x ∈ L, p x = false) → ∀ i, List.findIdx? p L i = none := by
  intro L
  induction L with
  | nil =>
    intro _ i
    rfl
  | cons y ys ih =>
    intro h i
    rw [List.findIdx?_cons, h y (List.mem_cons_self _ _)]
    simp only [Bool.false_eq_true, if_false]
    exact ih (fun x hx => h x (List.mem_cons_of_mem _ hx)) (i + 1)

theorem removeSubnet_skip (s : Subnet) (C2 : List Subnet) : ∀ C1 : List Subnet,
    (∀ m ∈ C1, m ≠ s ∧ m.containsSubnet s = false) →
    removeSubnet (C1 ++ s :: C2) s = C1 ++ C2 := by
  intro C1
  induction C1 with
  | nil =>
    intro _
    simp [removeSubnet]
  | cons y ys ih =>
    intro h
    obtain ⟨hne, hnc⟩ := h y (List.mem_cons_self _ _)
    show removeSubnet (y :: (ys ++ s :: C2)) s = y :: (ys ++ C2)
    rw [removeSubnet]
    rw [if_neg hne, if_neg (by rw [hnc]; simp)]
    rw [ih (fun m hm => h m (List.mem_cons_of_mem _ hm))]

theorem containsSubnet_self (s : Subnet) (hw : s.wf = true) :
    s.containsSubnet s = true := by
  rw [containsSubnet_iff s s hw hw]
  exact ⟨rfl, le_refl _, le_refl _⟩

/-- C9 counterexample: for the normalised collection `{0.0.0.0/24}`,
adding the already-present subnet `0.0.0.0/24` is a no-op, but the
following `remove` deletes the member, so the prior content is not
restored. -/
theorem add_remove_counterexample :
    optimise [(⟨Fam.v4, 0, 24⟩ : Subnet)] = [⟨Fam.v4, 0, 24⟩] ∧
      (⟨Fam.v4, 0, 24⟩ : Subnet).wf = true ∧
      removeSubnet (addSubnet [⟨Fam.v4, 0, 24⟩] ⟨Fam.v4, 0, 24⟩) ⟨Fam.v4, 0, 24⟩
        = [] ∧
      ([] : List Subnet) ≠ [⟨Fam.v4, 0, 24⟩] := by
  refine ⟨by decide, by decide, by decide, by decide⟩

/-- C9 (amended): for a well-formed normalised collection `C` and a
well-formed subnet `s` that is not already covered by a member, does not
itself contain a member, and whose insertion triggers no merge in the
normalisation pass, `add(s)` followed by `remove(s)` restores the
member list exactly.  (Without these conditions restoration can fail:
adding an already-present subnet is a no-op yet `remove` deletes it, an
added superset absorbs members that `remove` cannot resurrect, and a
merge of non-aligned adjacent blocks is lossy.) -/
theorem add_remove_roundtrip (C : List Subnet) (s : Subnet)
    (hws : s.wf = true)
    (hnorm : optimise C = C)
    (hnc : ∀ m ∈ C, m.containsSubnet s = false)
    (hcn : ∀ m ∈ C, s.containsSubnet m = false)
    (hnm : (scanMerge (insertSorted s C)).2 = false) :
    removeSubnet (addSubnet C s) s = C := by
  obtain ⟨hsorted, hself⟩ := optimise_eq_self_sorted C hnorm
  have hhas : hasSubnet C s = false := by
    unfold hasSubnet
    rw [List.any_eq_false]
    intro m hm
    rw [hnc m hm]
    simp
  have hidx : C.findIdx? (fun m => s.containsSubnet m) = none :=
    findIdx?_none_of_all_false _ C (fun m hm => hcn m hm) 0
  have hadd : addSubnet C s = optimise (C ++ [s]) := by
    unfold addSubnet
    rw [if_neg (by rw [hhas]; simp), hidx]
  have hsortCS : sortSubnets (C ++ [s]) = insertSorted s C :=
    sortSubnets_append_single C s hsorted
  have hopt : optimise (C ++ [s]) = insertSorted s C := by
    unfold optimise
    rcases hI : insertSorted s C with _ | ⟨x, xs⟩
    · exfalso
      have := (insertSorted_perm s C).length_eq
      rw [hI] at this
      simp at this
    · rw [optimiseFuel, hsortCS, hI]
      rw [hI] at hnm
      rw [if_neg (by rw [hnm]; simp)]
      exact (scanGo_nomerge x xs hnm).1
  obtain ⟨C1, C2, hC12, hIns⟩ := insertSorted_decomp s C
  have hmem1 : ∀ m ∈ C1, m ≠ s ∧ m.containsSubnet s = false := by
    intro m hm
    have hmC : m ∈ C := by
      rw [hC12]
      exact List.mem_append.mpr (Or.inl hm)
    refine ⟨?_, hnc m hmC⟩
    intro he
    have := hnc m hmC
    rw [he, containsSubnet_self s hws] at this
    exact Bool.noConfusion this
  rw [hadd, hopt, hIns, removeSubnet_skip s C2 C1 hmem1, ← hC12]

/-- Closed witness for `add_remove_roundtrip`. -/
theorem add_remove_roundtrip_witness :
    removeSubnet (addSubnet [(⟨Fam.v4, 0, 25⟩ : Subnet)] ⟨Fam.v4, 192, 26⟩)
        ⟨Fam.v4, 192, 26⟩
      = [⟨Fam.v4, 0, 25⟩] := by
  apply add_remove_roundtrip
  · decide
  · decide
  · decide
  · decide
  · decide

/-! ### Text parsing and rendering

Strings are modelled as `List Char`.  JavaScript numbers returned by
`Number.parseInt` are modelled as `Option Int` (`none` is `NaN`); the
double-precision rounding of astronomically large parsed values is
immaterial here because every parsed value is immediately range checked
against 255 or 0xFFFF, and rounding preserves being above those bounds. -/

/-- The digit alphabet of `Number.parseInt`: `0-9`, `a-z`, `A-Z`,
restricted to the radix (`none` when the character is no digit of the
radix). -/
def digitVal (radix : Nat) (c : Char) : Option Nat :=
  if 48 ≤ c.toNat ∧ c.toNat ≤ 57 then
    if c.toNat - 48 < radix then some (c.toNat - 48) else none
  else if 97 ≤ c.toNat ∧ c.toNat ≤ 122 then
    if c.toNat - 87 < radix then some (c.toNat - 87) else none
  else if 65 ≤ c.toNat ∧ c.toNat ≤ 90 then
    if c.toNat - 55 < radix then some (c.toNat - 55) else none
  else none

/-- The longest prefix of digits valid in the radix, as digit values. -/
def takeDigits (radix : Nat) : List Char → List Nat
  | [] => []
  | c :: cs =>
    match digitVal radix c with
    | some d => d :: takeDigits radix cs
    | none => []

/-- JavaScript `StrWhiteSpace` characters (ASCII whitespace, NBSP, BOM
and the Unicode line separators; the remaining Unicode space separators
never occur in this development). -/
def isJsWs (c : Char) : Bool :=
  c = ' ' || c = '\t' || c = '\n' || c = '\r' ||
    c.toNat = 0xb || c.toNat = 0xc || c.toNat = 0xa0 ||
    c.toNat = 0xfeff || c.toNat = 0x2028 || c.toNat = 0x2029

/-- JavaScript `Number.parseInt(s, radix)`: skip leading whitespace, an
optional sign, an optional `0x`/`0X` prefix when the radix is 16, then
take the longest valid digit prefix (trailing characters are ignored);
`NaN` when no digit was consumed. -/
def jsParseInt (radix : Nat) (s : List Char) : Option Int :=
  let s1 := s.dropWhile isJsWs
  let s2 := if s1.head? = some '-' ∨ s1.head? = some '+' then s1.tail else s1
  let s3 :=
    if radix = 16 ∧ (s2.take 2 = ['0', 'x'] ∨ s2.take 2 = ['0', 'X']) then s2.drop 2
    else s2
  let ds := takeDigits radix s3
  if ds.isEmpty then none
  else
    let m : Int := Int.ofNat (ds.foldl (fun a d => a * radix + d) 0)
    some (if s1.head? = some '-' then -m else m)

/-- Lower-case digit characters, as produced by
`Number.prototype.toString(radix)`. -/
def digitChar (d : Nat) : Char :=
  if d < 10 then Char.ofNat (48 + d) else Char.ofNat (87 + d)

/-- Fuelled big-endian rendering loop (the fuel only bounds the digit
count, one digit is emitted per step). -/
def natToDigitsGo (b : Nat) : Nat → Nat → List Char
  | 0, _ => []
  | fuel + 1, n =>
    if n = 0 then [] else natToDigitsGo b fuel (n / b) ++ [digitChar (n % b)]

/-- Rendering of a natural in base `b` with no padding and no leading
zeros (`0` renders as `"0"`), as `Number.prototype.toString(b)` does for
the naturals occurring here. -/
def natToDigits (b n : Nat) : List Char :=
  if n = 0 then ['0'] else natToDigitsGo b (n + 1) n

/-- Digit characters round-trip through `digitVal` (bounded check). -/
theorem digitVal_digitChar_fin : ∀ r : Fin 17, ∀ d : Fin 16,
    d.val < r.val → digitVal r.val (digitChar d.val) = some d.val := by decide

/-- Character-level facts about the digit alphabet (bounded check). -/
theorem digitChar_facts : ∀ d : Fin 16,
    isJsWs (digitChar d.val) = false ∧ digitChar d.val ≠ '-' ∧
    digitChar d.val ≠ '+' ∧ digitChar d.val ≠ ':' ∧ digitChar d.val ≠ '.' ∧
    (digitChar d.val = '0' ↔ d.val = 0) := by decide

theorem digitVal_digitChar (radix d : Nat) (hr : radix ≤ 16) (hd : d < radix) :
    digitVal radix (digitChar d) = some d :=
  digitVal_digitChar_fin ⟨radix, by omega⟩ ⟨d, by omega⟩ hd

/-- A list of valid digit characters is consumed completely by
`takeDigits`. -/
theorem takeDigits_map_digitChar (radix : Nat) (hr : radix ≤ 16) :
    ∀ l : List Nat, (∀ d ∈ l, d < radix) →
      takeDigits radix (l.map digitChar) = l := by
  intro l
  induction l with
  | nil => intro _; rfl
  | cons d ds ih =>
    intro hall
    simp only [List.map_cons, takeDigits,
      digitVal_digitChar radix d hr (hall d (List.mem_cons_self _ _))]
    rw [ih (fun x hx => hall x (List.mem_cons_of_mem _ hx))]

/-- Big-endian digit accumulation inverts little-endian `Nat.ofDigits`. -/
theorem foldl_reverse_ofDigits (b : Nat) : ∀ l : List Nat,
    (l.reverse.foldl (fun a d => a * b + d) 0) = Nat.ofDigits b l := by
  intro l
  induction l with
  | nil => simp [Nat.ofDigits]
  | cons d ds ih =>
    rw [List.reverse_cons, List.foldl_append]
    simp only [List.foldl_cons, List.foldl_nil]
    rw [ih, Nat.ofDigits_cons]
    ring

/-- The fuelled rendering loop computes the reversed digit expansion. -/
theorem natToDigitsGo_eq (b : Nat) (hb : 2 ≤ b) : ∀ fuel n, n < fuel →
    natToDigitsGo b fuel n = ((Nat.digits b n).map digitChar).reverse := by
  intro fuel
  induction fuel with
  | zero => intro n hn; omega
  | succ fuel ih =>
    intro n hn
    by_cases h0 : n = 0
    · subst h0; simp [natToDigitsGo]
    · rw [natToDigitsGo, if_neg h0,
        Nat.digits_def' (by omega : 1 < b) (by omega : 0 < n)]
      rw [List.map_cons, List.reverse_cons]
      rw [ih (n / b) (by
        have : n / b < n := Nat.div_lt_self (by omega) (by omega)
        omega)]

theorem natToDigits_eq (b n : Nat) (hb : 2 ≤ b) :
    natToDigits b n =
      if n = 0 then ['0'] else ((Nat.digits b n).map digitChar).reverse := by
  unfold natToDigits
  by_cases h0 : n = 0
  · simp [h0]
  · rw [if_neg h0, if_neg h0, natToDigitsGo_eq b hb (n + 1) n (by omega)]

theorem natToDigits_ne_nil (b n : Nat) (hb : 2 ≤ b) : natToDigits b n ≠ [] := by
  rw [natToDigits_eq b n hb]
  by_cases h0 : n = 0
  · simp [h0]
  · rw [if_neg h0]
    simp only [ne_eq, List.reverse_eq_nil_iff, List.map_eq_nil_iff]
    exact Nat.digits_ne_nil_iff_ne_zero.mpr h0

/-- Every character of a rendered natural is a digit character. -/
theorem natToDigits_chars (b n : Nat) (hb2 : 2 ≤ b) (hb : b ≤ 16) :
    ∀ c ∈ natToDigits b n, ∃ d, d < 16 ∧ c = digitChar d := by
  rw [natToDigits_eq b n hb2]
  by_cases h0 : n = 0
  · rw [if_pos h0]
    intro c hc
    rw [List.mem_singleton] at hc
    exact ⟨0, by omega, by rw [hc]; rfl⟩
  · rw [if_neg h0]
    intro c hc
    rw [List.mem_reverse, List.mem_map] at hc
    obtain ⟨d, hd, hcd⟩ := hc
    exact ⟨d, by have := Nat.digits_lt_base (by omega) hd; omega, hcd.symm⟩

/-- Parsing a big-endian list of digit characters with no leading zero
(leading zeros are allowed only for the single-digit string). -/
theorem jsParseInt_digits (b : Nat) (hb2 : 2 ≤ b) (hb : b ≤ 16)
    (l : List Nat) (hl : l ≠ []) (hl16 : ∀ d ∈ l, d < b)
    (hnolead : 2 ≤ l.length → l.head? ≠ some 0) :
    jsParseInt b (l.map digitChar) =
      some (Int.ofNat (l.foldl (fun a d => a * b + d) 0)) := by
  obtain ⟨d, ds, rfl⟩ := List.exists_cons_of_ne_nil hl
  have hd16 : d < 16 := by
    have := hl16 d (List.mem_cons_self _ _)
    omega
  obtain ⟨hwsF, hdashF, hplusF, _, _, hzeroF⟩ := digitChar_facts ⟨d, hd16⟩
  have hws : isJsWs (digitChar d) = false := hwsF
  have hdash : digitChar d ≠ '-' := hdashF
  have hplus : digitChar d ≠ '+' := hplusF
  have hzero : digitChar d = '0' ↔ d = 0 := hzeroF
  have hsign : ¬(some (digitChar d) = some '-' ∨ some (digitChar d) = some '+') := by
    rintro (h | h) <;> rw [Option.some.injEq] at h
    · exact hdash h
    · exact hplus h
  have hnegif : ¬(some (digitChar d) = some '-') := by
    rw [Option.some.injEq]
    exact hdash
  have h0x : ¬(b = 16 ∧
      ((digitChar d :: List.map digitChar ds).take 2 = ['0', 'x'] ∨
       (digitChar d :: List.map digitChar ds).take 2 = ['0', 'X'])) := by
    rintro ⟨-, hx⟩
    rcases ds with _ | ⟨e, ds2⟩
    · rcases hx with hx | hx <;> simp at hx
    · have hd0 : d ≠ 0 := by
        intro h
        exact hnolead (by simp) (by simp [h])
      rcases hx with hx | hx <;>
        · simp only [List.map_cons, List.take_succ_cons, List.take_zero,
            List.cons.injEq] at hx
          exact hd0 (hzero.mp hx.1)
  simp only [jsParseInt, List.map_cons, List.dropWhile_cons, hws,
    Bool.false_eq_true, if_false, List.head?_cons, if_neg hsign, if_neg h0x,
    if_neg hnegif]
  rw [show (digitChar d :: List.map digitChar ds) = List.map digitChar (d :: ds)
    from rfl]
  rw [takeDigits_map_digitChar b hb (d :: ds) hl16]
  simp only [List.isEmpty_cons, Bool.false_eq_true, if_false]

/-- Rendered naturals parse back to themselves. -/
theorem jsParseInt_natToDigits (b n : Nat) (hb2 : 2 ≤ b) (hb : b ≤ 16) :
    jsParseInt b (natToDigits b n) = some (Int.ofNat n) := by
  by_cases h0 : n = 0
  · subst h0
    have h := jsParseInt_digits b hb2 hb [0] (by simp) (by intro d hd; simp at hd; omega)
      (by intro h; simp at h)
    simpa using h
  · rw [natToDigits_eq b n hb2, if_neg h0, ← List.map_reverse]
    rw [jsParseInt_digits b hb2 hb (Nat.digits b n).reverse
      (by
        simp only [ne_eq, List.reverse_eq_nil_iff]
        exact Nat.digits_ne_nil_iff_ne_zero.mpr h0)
      (fun d hd => Nat.digits_lt_base (by omega) (List.mem_reverse.mp hd))
      (by
        intro _ hhead
        have hne : Nat.digits b n ≠ [] := Nat.digits_ne_nil_iff_ne_zero.mpr h0
        rw [List.head?_reverse] at hhead
        rw [List.getLast?_eq_getLast _ hne, Option.some.injEq] at hhead
        exact Nat.getLast_digit_ne_zero b h0 hhead)]
    rw [foldl_reverse_ofDigits, Nat.ofDigits_digits]

/-- JavaScript `String.prototype.split` with a one-character separator
(`"."` and `":"` here): consecutive separators and separators at either
end produce empty fields. -/
def splitChar (c : Char) : List Char → List (List Char)
  | [] => [[]]
  | d :: ds =>
    match splitChar c ds with
    | [] => [[d]]
    | t :: ts => if d = c then [] :: t :: ts else (d :: t) :: ts

/-- Whether the string contains two consecutive colons. -/
def hasDC : List Char → Bool
  | c :: d :: rest => if c = ':' ∧ d = ':' then true else hasDC (d :: rest)
  | _ => false

/-- JavaScript `String.prototype.split` with separator `"::"`: scans
left to right for non-overlapping occurrences. -/
def splitDC : List Char → List (List Char)
  | [] => [[]]
  | [c] => [[c]]
  | c :: d :: rest =>
    if c = ':' ∧ d = ':' then [] :: splitDC rest
    else
      match splitDC (d :: rest) with
      | [] => [[c]]
      | t :: ts => (c :: t) :: ts

/-- JavaScript `Array.prototype.join`. -/
def joinSep (sep : List Char) : List (List Char) → List Char
  | [] => []
  | [t] => t
  | t :: ts => t ++ sep ++ joinSep sep ts

theorem joinSep_cons2 (sep t : List Char) (t2 : List Char)
    (ts2 : List (List Char)) :
    joinSep sep (t :: t2 :: ts2) = t ++ sep ++ joinSep sep (t2 :: ts2) := rfl

theorem splitChar_ne_nil (c : Char) (l : List Char) : splitChar c l ≠ [] := by
  induction l with
  | nil => simp [splitChar]
  | cons d ds ih =>
    rw [splitChar]
    rcases h : splitChar c ds with _ | ⟨t, ts⟩
    · simp
    · by_cases hdc : d = c <;> simp [hdc]

theorem splitChar_of_not_mem (c : Char) (t : List Char) (h : c ∉ t) :
    splitChar c t = [t] := by
  induction t with
  | nil => rfl
  | cons d ds ih =>
    rw [List.mem_cons, not_or] at h
    have hdc : ¬ d = c := fun hdc => h.1 hdc.symm
    rw [splitChar, ih h.2]
    simp only [hdc, if_false]

theorem splitChar_append (c : Char) (t rest : List Char) (h : c ∉ t) :
    splitChar c (t ++ c :: rest) = t :: splitChar c rest := by
  induction t with
  | nil =>
    rw [List.nil_append, splitChar]
    rcases hr : splitChar c rest with _ | ⟨t0, ts0⟩
    · exact absurd hr (splitChar_ne_nil c rest)
    · simp
  | cons d ds ih =>
    rw [List.mem_cons, not_or] at h
    have hdc : ¬ d = c := fun hdc => h.1 hdc.symm
    rw [List.cons_append, splitChar, ih h.2]
    simp only [hdc, if_false]

theorem splitChar_joinSep (c : Char) (toks : List (List Char))
    (hne : toks ≠ []) (hfree : ∀ t ∈ toks, c ∉ t) :
    splitChar c (joinSep [c] toks) = toks := by
  induction toks with
  | nil => exact absurd rfl hne
  | cons t ts ih =>
    rcases ts with _ | ⟨t2, ts2⟩
    · exact splitChar_of_not_mem c t (hfree t (List.mem_cons_self _ _))
    · rw [joinSep_cons2]
      have hj : t ++ [c] ++ joinSep [c] (t2 :: ts2) =
          t ++ c :: joinSep [c] (t2 :: ts2) := by
        rw [List.append_assoc]
        rfl
      rw [hj, splitChar_append c t _ (hfree t (List.mem_cons_self _ _)),
        ih (by simp) (fun x hx => hfree x (List.mem_cons_of_mem _ hx))]

theorem hasDC_cons (c : Char) (l : List Char) :
    hasDC (c :: l) = if c = ':' ∧ l.head? = some ':' then true else hasDC l := by
  cases l with
  | nil => simp [hasDC]
  | cons d rest => simp only [hasDC, List.head?_cons, Option.some.injEq]

theorem hasDC_append_token (t s : List Char) (ht : ∀ x ∈ t, x ≠ ':')
    (hs : hasDC s = false) : hasDC (t ++ s) = false := by
  induction t with
  | nil => simpa using hs
  | cons a t2 ih =>
    rw [List.cons_append, hasDC_cons,
      if_neg (fun h => ht a (List.mem_cons_self _ _) h.1)]
    exact ih (fun x hx => ht x (List.mem_cons_of_mem _ hx))

theorem joinSep_ne_nil (sep : List Char) (toks : List (List Char))
    (hne : toks ≠ []) (htok : ∀ t ∈ toks, t ≠ []) :
    joinSep sep toks ≠ [] := by
  rcases toks with _ | ⟨t, ts⟩
  · exact absurd rfl hne
  · rcases ts with _ | ⟨t2, ts2⟩
    · exact htok t (List.mem_cons_self _ _)
    · rw [joinSep_cons2]
      intro hcontra
      have h1 := (List.append_eq_nil.mp hcontra).1
      have h2 := (List.append_eq_nil.mp h1).1
      exact htok t (List.mem_cons_self _ _) h2

theorem joinSep_head? (sep : List Char) (t : List Char) (ts : List (List Char))
    (ht : t ≠ []) : (joinSep sep (t :: ts)).head? = t.head? := by
  rcases ts with _ | ⟨t2, ts2⟩
  · rfl
  · rw [joinSep_cons2]
    rcases t with _ | ⟨a, t3⟩
    · exact absurd rfl ht
    · rfl

theorem mem_joinSep (sep : List Char) (toks : List (List Char)) (c : Char)
    (hc : c ∈ joinSep sep toks) : c ∈ sep ∨ ∃ t ∈ toks, c ∈ t := by
  induction toks with
  | nil => simp [joinSep] at hc
  | cons t ts ih =>
    rcases ts with _ | ⟨t2, ts2⟩
    · exact Or.inr ⟨t, List.mem_cons_self _ _, hc⟩
    · rw [joinSep_cons2, List.append_assoc, List.mem_append] at hc
      rcases hc with hc | hc
      · exact Or.inr ⟨t, List.mem_cons_self _ _, hc⟩
      · rw [List.mem_append] at hc
        rcases hc with hc | hc
        · exact Or.inl hc
        · rcases ih hc with h | ⟨u, hu, hcu⟩
          · exact Or.inl h
          · exact Or.inr ⟨u, List.mem_cons_of_mem _ hu, hcu⟩

theorem hasDC_joinSep (toks : List (List Char)) (hne : toks ≠ [])
    (htok : ∀ t ∈ toks, t ≠ [] ∧ ∀ c ∈ t, c ≠ ':') :
    hasDC (joinSep [':'] toks) = false := by
  induction toks with
  | nil => exact absurd rfl hne
  | cons t ts ih =>
    rcases ts with _ | ⟨t2, ts2⟩
    · have := (htok t (List.mem_cons_self _ _)).2
      have h := hasDC_append_token t [] this rfl
      simpa using h
    · rw [joinSep_cons2, List.append_assoc]
      apply hasDC_append_token t _ (htok t (List.mem_cons_self _ _)).2
      rw [List.singleton_append, hasDC_cons]
      rw [joinSep_head? [':'] t2 ts2 (htok t2 (by simp)).1]
      rcases ht2 : t2.head? with _ | a
      · rw [if_neg (by rintro ⟨-, h⟩; exact Option.noConfusion h)]
        exact ih (by simp) (fun x hx => htok x (List.mem_cons_of_mem _ hx))
      · have ha : a ∈ t2 := List.mem_of_mem_head? (by rw [ht2]; exact rfl)
        rw [if_neg (by
          rintro ⟨-, h⟩
          rw [Option.some.injEq] at h
          exact (htok t2 (by simp)).2 a ha h)]
        exact ih (by simp) (fun x hx => htok x (List.mem_cons_of_mem _ hx))

theorem splitDC_of_no (s : List Char) (h : hasDC s = false) : splitDC s = [s] := by
  induction s with
  | nil => rfl
  | cons c rest ih =>
    rcases rest with _ | ⟨d, rest2⟩
    · rfl
    · rw [hasDC] at h
      by_cases hcd : c = ':' ∧ d = ':'
      · rw [if_pos hcd] at h
        exact absurd h (by simp)
      · rw [if_neg hcd] at h
        rw [splitDC, if_neg hcd, ih h]

theorem splitDC_append (A : List Char) : ∀ B : List Char, hasDC B = false →
    (∀ x, B.getLast? = some x → x ≠ ':') →
    splitDC (B ++ ':' :: ':' :: A) = B :: splitDC A := by
  intro B
  induction B with
  | nil =>
    intro _ _
    rw [List.nil_append, splitDC, if_pos ⟨rfl, rfl⟩]
  | cons b B2 ih =>
    intro hB hlast
    rcases B2 with _ | ⟨b2, B3⟩
    · have hb : ¬(b = ':' ∧ (':' : Char) = ':') := fun h => hlast b rfl h.1
      rw [List.cons_append, List.nil_append, splitDC, if_neg hb,
        splitDC, if_pos ⟨rfl, rfl⟩]
    · have hcond : ¬(b = ':' ∧ b2 = ':') := by
        rw [hasDC] at hB
        intro h
        rw [if_pos h] at hB
        exact absurd hB (by simp)
      have hB2 : hasDC (b2 :: B3) = false := by
        rw [hasDC, if_neg hcond] at hB
        exact hB
      have hlast2 : ∀ x, (b2 :: B3).getLast? = some x → x ≠ ':' := by
        intro x hx
        exact hlast x (by rw [List.getLast?_cons_cons]; exact hx)
      rw [List.cons_append,
        show (b2 :: B3) ++ ':' :: ':' :: A = b2 :: (B3 ++ ':' :: ':' :: A)
          from rfl,
        splitDC, if_neg hcond,
        show b2 :: (B3 ++ ':' :: ':' :: A) = (b2 :: B3) ++ ':' :: ':' :: A
          from rfl,
        ih hB2 hlast2]

/-! ### IPv4 text form

`IPv4.fromString` splits on `"."` with limit 4, parses each field with
`Number.parseInt(_, 10)`, rejects `NaN` and values outside `0..255`,
then `fromBinary` rejects field counts other than 4 and assembles
`(o0 << 24 | o1 << 16 | o2 << 8 | o3) >>> 0`; for octets in `0..255`
that expression equals the base-256 value modelled here.
`IPv4.prototype.toString` renders the 4 bytes `(value >> k) & 0xFF` in
decimal, joined by `"."`. -/

def badOctet (o : Option Int) : Bool :=
  match o with
  | none => true
  | some m => decide (m < 0) || decide (255 < m)

/-- Models `IPv4.fromBinary`: reject octet counts other than 4, then assemble
the 32-bit value. -/
def octetsToValue : List Nat → Except JsErr Nat
  | [a, b, c, d] => .ok (((a * 256 + b) * 256 + c) * 256 + d)
  | _ => .error .rangeError

def parseIPv4 (s : List Char) : Except JsErr Nat :=
  let octets := ((splitChar '.' s).take 4).map (jsParseInt 10)
  if octets.any badOctet then .error .rangeError
  else octetsToValue (octets.map (fun o => (o.getD 0).toNat))

def decOctets (v : Nat) : List Nat :=
  [v >>> 24 &&& 255, v >>> 16 &&& 255, v >>> 8 &&& 255, v &&& 255]

def renderIPv4 (v : Nat) : List Char :=
  joinSep ['.'] ((decOctets v).map (natToDigits 10))

/-! ### IPv6 text form -/

/-- The test of `IPv4.regex`
(`^(?:(?:25[0-5]|2[0-4]\d|1\d{2}|[1-9]\d|\d)\.){3}(?:...)$`) at the
level of dot-fields: the octet alternation matches exactly the decimal
strings of value at most 255 with no leading zero (a lone `0` is
allowed), and the anchored pattern matches exactly 4 such fields joined
by dots. -/
def isOctetToken (t : List Char) : Bool :=
  decide (t ≠ []) &&
    t.all (fun c => decide (48 ≤ c.toNat) && decide (c.toNat ≤ 57)) &&
    (decide (t.length = 1) || decide (t.head? ≠ some '0')) &&
    decide (t.foldl (fun a c => a * 10 + (c.toNat - 48)) 0 ≤ 255)

def isIPv4Token (t : List Char) : Bool :=
  decide ((splitChar '.' t).length = 4) && (splitChar '.' t).all isOctetToken

/-- Models `IPv6.parseHextet`: a field matching the IPv4 regex contributes the
two 16-bit halves of the embedded IPv4 address
(`[(ip[0] << 8) | ip[1], (ip[2] << 8) | ip[3]]`); any other field is
parsed as one base-16 integer.  Regex-valid fields always parse, so the
error branch of the helper is dead. -/
def parseHextet (t : List Char) : List (Option Int) :=
  if isIPv4Token t then
    match parseIPv4 t with
    | .ok v => [some (Int.ofNat (v >>> 16)), some (Int.ofNat (v &&& 65535))]
    | .error _ => []
  else [jsParseInt 16 t]

def badHextet (o : Option Int) : Bool :=
  match o with
  | none => true
  | some m => decide (m < 0) || decide (65535 < m)

/-- One side of the `"::"` split: the empty string contributes no
hextets, anything else is split on `":"` and flat-mapped through
`parseHextet`. -/
def hexTokens (p : List Char) : List (Option Int) :=
  if p = [] then [] else (splitChar ':' p).flatMap parseHextet

def hexStartOf (s : List Char) : List (Option Int) :=
  hexTokens (((splitDC s).take 2).getD 0 [])

def hexEndOf (s : List Char) : List (Option Int) :=
  hexTokens (((splitDC s).take 2).getD 1 [])

/-- Models `IPv6.fromString`: split on `"::"` with limit 2, parse both sides,
reject bad hextets, more than 6 explicit hextets when `"::"` is
present, or other than 8 hextets when it is absent; then place the
start hextets at offset 0 and the end hextets at offset
`8 - end.length` of a zero-filled array of 8, and assemble the 128-bit
value (`fromBinary` ors the hextets shifted into disjoint 16-bit
positions, which equals the base-65536 value modelled here). -/
def parseIPv6 (s : List Char) : Except JsErr Nat :=
  let parts := (splitDC s).take 2
  let hextestStart := hexStartOf s
  let hextestEnd := hexEndOf s
  if hextestStart.any badHextet || hextestEnd.any badHextet ||
      (decide (parts.length = 2) &&
        decide (6 < hextestStart.length + hextestEnd.length)) ||
      (decide (parts.length < 2) &&
        decide (hextestStart.length + hextestEnd.length ≠ 8)) then
    .error .rangeError
  else
    let st := hextestStart.map (fun o => (o.getD 0).toNat)
    let en := hextestEnd.map (fun o => (o.getD 0).toNat)
    let gs := st ++ List.replicate (8 - st.length - en.length) 0 ++ en
    .ok (gs.foldl (fun a g => a * 65536 + g) 0)

/-- Models `IPv6.prototype.binary`: the eight 16-bit groups. -/
def hexGroups (v : Nat) : List Nat :=
  [v >>> 112 &&& 65535, v >>> 96 &&& 65535, v >>> 80 &&& 65535,
   v >>> 64 &&& 65535, v >>> 48 &&& 65535, v >>> 32 &&& 65535,
   v >>> 16 &&& 65535, v &&& 65535]

/-- Length of the zero-group run starting at index `i`. -/
def runLenAt (gs : List Nat) (i : Nat) : Nat :=
  ((gs.drop i).takeWhile (fun g => decide (g = 0))).length

/-- Whether index `i` starts a maximal run of at least two zero
groups. -/
def isRunStart (gs : List Nat) (i : Nat) : Bool :=
  decide (2 ≤ runLenAt gs i) &&
    (decide (i = 0) || decide (gs.getD (i - 1) 1 ≠ 0))

/-- The maximal runs of at least two zero groups, in order.  These are
exactly the positions where `/(?:^|:)0(?::0)+(?:$|:)/g` matches the
uncompressed rendering (matches of consecutive runs never overlap
because distinct runs are separated by at least one non-zero group,
whose two adjacent colons are distinct). -/
def zeroRuns (gs : List Nat) : List (Nat × Nat) :=
  (List.range gs.length).filterMap
    (fun i => if isRunStart gs i then some (i, runLenAt gs i) else none)

/-- The length of the regex match produced by the run `(i, k)`:
`2k - 1` characters for the zero groups and their inner colons, plus a
leading colon unless the run starts the string, plus a trailing colon
unless the run ends it. -/
def matchLen (glen : Nat) (r : Nat × Nat) : Nat :=
  2 * r.2 - 1 + (if r.1 = 0 then 0 else 1) + (if r.1 + r.2 = glen then 0 else 1)

/-- The run whose match string `reduce` selects: the leftmost run of
maximal match length (the JS reduce keeps the accumulator on ties).
`String.prototype.replace` then replaces the first occurrence of that
match string, which is the selected run itself: a group token starts
with `0` only if it is the token `0` (hex rendering has no leading
zeros), so any earlier occurrence of the match string would sit on an
earlier zero run whose own match is at least as long, contradicting the
leftmost-maximum choice. -/
def bestRun (gs : List Nat) : Option (Nat × Nat) :=
  (zeroRuns gs).foldl
    (fun acc r =>
      match acc with
      | none => some r
      | some b => if matchLen gs.length b < matchLen gs.length r then some r else acc)
    none

/-- Models `IPv6.prototype.toString`: hex groups joined by `":"`, with the
selected zero run (if any) compressed to `"::"`. -/
def renderIPv6 (v : Nat) : List Char :=
  let gs := hexGroups v
  let toks := gs.map (natToDigits 16)
  match bestRun gs with
  | none => joinSep [':'] toks
  | some r =>
    joinSep [':'] (toks.take r.1) ++ ':' :: ':' :: joinSep [':'] (toks.drop (r.1 + r.2))

/-- Models `IPAddress.fromString`: strings containing `":"` are parsed as
IPv6, all others as IPv4. -/
def parseIP (s : List Char) : Except JsErr (Fam × Nat) :=
  if ':' ∈ s then (parseIPv6 s).map (fun v => (Fam.v6, v))
  else (parseIPv4 s).map (fun v => (Fam.v4, v))

def renderIP : Fam → Nat → List Char
  | Fam.v4, v => renderIPv4 v
  | Fam.v6, v => renderIPv6 v

theorem and_two_pow_sub_one (x w : Nat) : x &&& (2 ^ w - 1) = x % 2 ^ w := by
  have h := and_mask_arith x w 0
  simp only [shiftLeft_as_mul, pow_zero, mul_one, one_mul, Nat.div_one] at h
  exact h

theorem and_255 (x : Nat) : x &&& 255 = x % 256 := by
  have h := and_two_pow_sub_one x 8
  norm_num at h
  exact h

theorem and_65535 (x : Nat) : x &&& 65535 = x % 65536 := by
  have h := and_two_pow_sub_one x 16
  norm_num at h
  exact h

theorem div_pow_step (x k w : Nat) :
    x / 2 ^ (k + w) * 2 ^ w + x / 2 ^ k % 2 ^ w = x / 2 ^ k := by
  have h1 : x / 2 ^ (k + w) = x / 2 ^ k / 2 ^ w := by
    rw [Nat.div_div_eq_div_mul, ← pow_add]
  rw [h1]
  exact Nat.div_add_mod' _ _

theorem step16 (x k j : Nat) (hkj : k + 16 = j) :
    x / 2 ^ j * 65536 + x / 2 ^ k % 65536 = x / 2 ^ k := by
  subst hkj
  have h := div_pow_step x k 16
  norm_num at h
  exact h

theorem step16_final (x : Nat) : x / 2 ^ 16 * 65536 + x % 65536 = x := by
  have h := div_pow_step x 0 16
  norm_num at h
  exact h

theorem step8 (x k j : Nat) (hkj : k + 8 = j) :
    x / 2 ^ j * 256 + x / 2 ^ k % 256 = x / 2 ^ k := by
  subst hkj
  have h := div_pow_step x k 8
  norm_num at h
  exact h

theorem step8_final (x : Nat) : x / 2 ^ 8 * 256 + x % 256 = x := by
  have h := div_pow_step x 0 8
  norm_num at h
  exact h

theorem decOctets_lt (v : Nat) : ∀ o ∈ decOctets v, o < 256 := by
  intro o ho
  simp only [decOctets, List.mem_cons, List.not_mem_nil, or_false] at ho
  have h256 : (0 : Nat) < 256 := by norm_num
  rcases ho with rfl | rfl | rfl | rfl <;> rw [and_255] <;> exact Nat.mod_lt _ h256

theorem hexGroups_lt (v : Nat) : ∀ g ∈ hexGroups v, g < 65536 := by
  intro g hg
  simp only [hexGroups, List.mem_cons, List.not_mem_nil, or_false] at hg
  have h65536 : (0 : Nat) < 65536 := by norm_num
  rcases hg with rfl | rfl | rfl | rfl | rfl | rfl | rfl | rfl <;> rw [and_65535] <;>
    exact Nat.mod_lt _ h65536

/-- Reassembling the four octets recovers the 32-bit value. -/
theorem decOctets_val (v : Nat) (hv : v < 2 ^ 32) :
    (((v >>> 24 &&& 255) * 256 + (v >>> 16 &&& 255)) * 256 + (v >>> 8 &&& 255)) * 256 +
      (v &&& 255) = v := by
  simp only [and_255, Nat.shiftRight_eq_div_pow]
  have h24 : v / 2 ^ 24 % 256 = v / 2 ^ 24 :=
    Nat.mod_eq_of_lt (Nat.div_lt_of_lt_mul (by
      calc v < 2 ^ 32 := hv
      _ = 2 ^ 24 * 256 := by norm_num))
  rw [h24, step8 v 16 24 (by norm_num), step8 v 8 16 (by norm_num), step8_final v]

/-- Reassembling the eight hextets recovers the 128-bit value. -/
theorem hexGroups_foldl (v : Nat) (hv : v < 2 ^ 128) :
    (hexGroups v).foldl (fun a g => a * 65536 + g) 0 = v := by
  simp only [hexGroups, List.foldl_cons, List.foldl_nil, and_65535,
    Nat.shiftRight_eq_div_pow, Nat.zero_mul, Nat.zero_add]
  have h112 : v / 2 ^ 112 % 65536 = v / 2 ^ 112 :=
    Nat.mod_eq_of_lt (Nat.div_lt_of_lt_mul (by
      calc v < 2 ^ 128 := hv
      _ = 2 ^ 112 * 65536 := by norm_num))
  rw [h112, step16 v 96 112 (by norm_num), step16 v 80 96 (by norm_num),
    step16 v 64 80 (by norm_num), step16 v 48 64 (by norm_num),
    step16 v 32 48 (by norm_num), step16 v 16 32 (by norm_num), step16_final v]

/-- Rendered group tokens are nonempty and contain neither `:` nor
`.`. -/
theorem natToDigits_token (b n : Nat) (hb2 : 2 ≤ b) (hb : b ≤ 16) :
    natToDigits b n ≠ [] ∧ ∀ c ∈ natToDigits b n, c ≠ ':' ∧ c ≠ '.' := by
  refine ⟨natToDigits_ne_nil b n hb2, ?_⟩
  intro c hc
  obtain ⟨d, hd, rfl⟩ := natToDigits_chars b n hb2 hb c hc
  obtain ⟨-, -, -, hcolon, hdot, -⟩ := digitChar_facts ⟨d, hd⟩
  exact ⟨hcolon, hdot⟩

/-- Dot-free fields take the `parseInt(_, 16)` branch of
`parseHextet`. -/
theorem parseHextet_hex (t : List Char) (hdot : '.' ∉ t) :
    parseHextet t = [jsParseInt 16 t] := by
  have h4 : isIPv4Token t = false := by
    unfold isIPv4Token
    rw [splitChar_of_not_mem '.' t hdot]
    simp
  simp only [parseHextet, h4, Bool.false_eq_true, if_false]

theorem flatMap_parseHextet (L : List (List Char)) (h : ∀ t ∈ L, '.' ∉ t) :
    L.flatMap parseHextet = L.map (fun t => jsParseInt 16 t) := by
  induction L with
  | nil => rfl
  | cons t ts ih =>
    rw [List.flatMap_cons, parseHextet_hex t (h t (List.mem_cons_self _ _)),
      List.map_cons, ih (fun x hx => h x (List.mem_cons_of_mem _ hx))]
    rfl

/-- Parsing one side of the `"::"` split of a rendered string recovers
the group values. -/
theorem hexTokens_eq (ms : List Nat) (hne : ms ≠ []) :
    hexTokens (joinSep [':'] (ms.map (natToDigits 16))) =
      ms.map (fun m => some (Int.ofNat m)) := by
  have htoks_ne : ms.map (natToDigits 16) ≠ [] := by
    simpa using hne
  have htok_all : ∀ t ∈ ms.map (natToDigits 16),
      t ≠ [] ∧ ∀ c ∈ t, c ≠ ':' ∧ c ≠ '.' := by
    intro t ht
    rw [List.mem_map] at ht
    obtain ⟨m, hm, rfl⟩ := ht
    exact natToDigits_token 16 m (by norm_num) (by norm_num)
  unfold hexTokens
  rw [if_neg (joinSep_ne_nil [':'] _ htoks_ne (fun t ht => (htok_all t ht).1))]
  rw [splitChar_joinSep ':' _ htoks_ne
    (fun t ht hmem => ((htok_all t ht).2 ':' hmem).1 rfl)]
  rw [flatMap_parseHextet _ (fun t ht hdot => ((htok_all t ht).2 '.' hdot).2 rfl)]
  rw [List.map_map]
  apply List.map_congr_left
  intro m hm
  exact jsParseInt_natToDigits 16 m (by norm_num) (by norm_num)

theorem badOctet_ofNat (m : Nat) (hm : m ≤ 255) :
    badOctet (some (Int.ofNat m)) = false := by
  simp only [badOctet, Bool.or_eq_false_iff, decide_eq_false_iff_not, Int.not_lt,
    Int.ofNat_eq_coe]
  omega

theorem badHextet_ofNat (m : Nat) (hm : m ≤ 65535) :
    badHextet (some (Int.ofNat m)) = false := by
  simp only [badHextet, Bool.or_eq_false_iff, decide_eq_false_iff_not, Int.not_lt,
    Int.ofNat_eq_coe]
  omega

/-- The IPv4 renderer and parser are mutually inverse on 32-bit
values. -/
theorem parseIPv4_renderIPv4 (v : Nat) (hv : v < 2 ^ 32) :
    parseIPv4 (renderIPv4 v) = .ok v := by
  have htoks_ne : (decOctets v).map (natToDigits 10) ≠ [] := by
    simp [decOctets]
  have htok_all : ∀ t ∈ (decOctets v).map (natToDigits 10),
      t ≠ [] ∧ ∀ c ∈ t, c ≠ ':' ∧ c ≠ '.' := by
    intro t ht
    rw [List.mem_map] at ht
    obtain ⟨m, hm, rfl⟩ := ht
    exact natToDigits_token 10 m (by norm_num) (by norm_num)
  unfold renderIPv4 parseIPv4
  rw [splitChar_joinSep '.' _ htoks_ne
    (fun t ht hdot => ((htok_all t ht).2 '.' hdot).2 rfl)]
  rw [List.take_of_length_le (by simp [decOctets])]
  rw [List.map_map]
  have hmap : (decOctets v).map (jsParseInt 10 ∘ natToDigits 10) =
      (decOctets v).map (fun m => some (Int.ofNat m)) :=
    List.map_congr_left
      (fun m hm => jsParseInt_natToDigits 10 m (by norm_num) (by norm_num))
  rw [hmap]
  have hany : ((decOctets v).map (fun m => some (Int.ofNat m))).any badOctet = false := by
    rw [List.any_eq_false]
    intro o ho
    rw [List.mem_map] at ho
    obtain ⟨m, hm, rfl⟩ := ho
    rw [badOctet_ofNat m (by have := decOctets_lt v m hm; omega)]
    simp
  simp only [hany, Bool.false_eq_true, if_false]
  simp only [decOctets, List.map_cons, List.map_nil, Option.getD_some,
    Int.ofNat_eq_coe, Int.toNat_natCast, octetsToValue]
  exact congrArg Except.ok (decOctets_val v hv)

theorem foldl_opt_mem {X : Type} (g : Option X → X → Option X)
    (hg : ∀ a c, g a c = some c ∨ g a c = a) :
    ∀ (l : List X) (acc : Option X) (r : X),
      l.foldl g acc = some r → r ∈ l ∨ acc = some r := by
  intro l
  induction l with
  | nil => exact fun acc r h => Or.inr h
  | cons x xs ih =>
    intro acc r h
    rw [List.foldl_cons] at h
    rcases ih (g acc x) r h with hm | hc
    · exact Or.inl (List.mem_cons_of_mem _ hm)
    · rcases hg acc x with he | he
      · rw [he, Option.some.injEq] at hc
        exact Or.inl (hc ▸ List.mem_cons_self _ _)
      · rw [he] at hc
        exact Or.inr hc

theorem bestRun_mem (gs : List Nat) (r : Nat × Nat) (h : bestRun gs = some r) :
    r ∈ zeroRuns gs := by
  unfold bestRun at h
  have hstep : ∀ (a : Option (Nat × Nat)) (c : Nat × Nat),
      (match a with
        | none => some c
        | some b => if matchLen gs.length b < matchLen gs.length c then some c else a) =
        some c ∨
      (match a with
        | none => some c
        | some b => if matchLen gs.length b < matchLen gs.length c then some c else a) =
        a := by
    intro a c
    rcases a with _ | b
    · exact Or.inl rfl
    · by_cases hf : matchLen gs.length b < matchLen gs.length c
      · exact Or.inl (by simp [hf])
      · exact Or.inr (by simp [hf])
  rcases foldl_opt_mem _ hstep (zeroRuns gs) none r h with hm | hc
  · exact hm
  · exact absurd hc (by simp)

theorem zeroRuns_props (gs : List Nat) (i k : Nat) (h : (i, k) ∈ zeroRuns gs) :
    2 ≤ k ∧ k = runLenAt gs i ∧ i + k ≤ gs.length := by
  unfold zeroRuns at h
  rw [List.mem_filterMap] at h
  obtain ⟨a, ha, heq⟩ := h
  by_cases hrs : isRunStart gs a
  · rw [if_pos hrs, Option.some.injEq, Prod.mk.injEq] at heq
    obtain ⟨rfl, rfl⟩ := heq
    unfold isRunStart at hrs
    rw [Bool.and_eq_true, decide_eq_true_eq] at hrs
    refine ⟨hrs.1, rfl, ?_⟩
    have hle : runLenAt gs a ≤ (gs.drop a).length :=
      (List.takeWhile_prefix _).length_le
    rw [List.length_drop] at hle
    rw [List.mem_range] at ha
    omega
  · rw [if_neg hrs] at heq
    exact absurd heq (by simp)

theorem takeWhile_zero_getD : ∀ (l : List Nat) (j : Nat),
    j < (l.takeWhile (fun g => decide (g = 0))).length → l.getD j 1 = 0 := by
  intro l
  induction l with
  | nil => intro j h; simp [List.takeWhile] at h
  | cons g l2 ih =>
    intro j h
    by_cases hg : g = 0
    · rw [List.takeWhile_cons, if_pos (by simp [hg]), List.length_cons] at h
      cases j with
      | zero => rw [List.getD_cons_zero, hg]
      | succ j2 =>
        rw [List.getD_cons_succ]
        exact ih j2 (by omega)
    · rw [List.takeWhile_cons, if_neg (by simp [hg]), List.length_nil] at h
      omega

theorem runLenAt_zero (gs : List Nat) (i j : Nat) (hj : j < runLenAt gs i) :
    gs.getD (i + j) 1 = 0 := by
  have h := takeWhile_zero_getD (gs.drop i) j hj
  rw [List.getD_eq_getElem?_getD, List.getElem?_drop] at h
  rw [List.getD_eq_getElem?_getD]
  exact h

theorem run_take_replicate (gs : List Nat) (i : Nat) :
    (gs.drop i).take (runLenAt gs i) = List.replicate (runLenAt gs i) 0 := by
  have hpre : (gs.drop i).takeWhile (fun g => decide (g = 0)) <+: gs.drop i :=
    List.takeWhile_prefix _
  rw [List.eq_replicate_iff]
  constructor
  · rw [List.length_take]
    have hle := hpre.length_le
    unfold runLenAt
    omega
  · intro b hb
    obtain ⟨t, ht⟩ := hpre
    have heq : (gs.drop i).take (runLenAt gs i) =
        (gs.drop i).takeWhile (fun g => decide (g = 0)) := by
      conv_lhs => rw [← ht]
      rw [show runLenAt gs i =
          ((gs.drop i).takeWhile (fun g => decide (g = 0))).length from rfl,
        List.take_left]
    rw [heq] at hb
    have := List.mem_takeWhile_imp hb
    simpa using this

theorem gs_decomp (gs : List Nat) (i k : Nat) (hk : k = runLenAt gs i) :
    gs = gs.take i ++ (List.replicate k 0 ++ gs.drop (i + k)) := by
  subst hk
  have h2 : gs.drop i =
      List.replicate (runLenAt gs i) 0 ++ gs.drop (i + runLenAt gs i) := by
    have h3 := (List.take_append_drop (runLenAt gs i) (gs.drop i)).symm
    rw [run_take_replicate, List.drop_drop] at h3
    exact h3
  calc gs = gs.take i ++ gs.drop i := (List.take_append_drop i gs).symm
  _ = gs.take i ++ (List.replicate (runLenAt gs i) 0 ++
      gs.drop (i + runLenAt gs i)) := by rw [h2]

theorem joinSep_getLast? (sep : List Char) : ∀ (toks : List (List Char)),
    toks ≠ [] → (∀ t ∈ toks, t ≠ []) →
    ∃ t ∈ toks, (joinSep sep toks).getLast? = t.getLast? := by
  intro toks
  induction toks with
  | nil => exact fun h _ => absurd rfl h
  | cons t ts ih =>
    intro _ htok
    rcases ts with _ | ⟨t2, ts2⟩
    · exact ⟨t, List.mem_cons_self _ _, rfl⟩
    · obtain ⟨u, hu, hequ⟩ := ih (by simp)
        (fun x hx => htok x (List.mem_cons_of_mem _ hx))
      refine ⟨u, List.mem_cons_of_mem _ hu, ?_⟩
      rw [joinSep_cons2, List.getLast?_append]
      have hJ : joinSep sep (t2 :: ts2) ≠ [] :=
        joinSep_ne_nil sep _ (by simp)
          (fun x hx => htok x (List.mem_cons_of_mem _ hx))
      rw [List.getLast?_eq_getLast _ hJ]
      have hor : (some ((joinSep sep (t2 :: ts2)).getLast hJ)).or
          (t ++ sep).getLast? = some ((joinSep sep (t2 :: ts2)).getLast hJ) := rfl
      rw [hor, ← List.getLast?_eq_getLast _ hJ]
      exact hequ

theorem toNat_map_some (ms : List Nat) :
    (ms.map (fun m => some (Int.ofNat m))).map (fun o => (o.getD 0).toNat) = ms := by
  rw [List.map_map]
  have h : ∀ m ∈ ms,
      ((fun o : Option Int => (o.getD 0).toNat) ∘ fun m => some (Int.ofNat m)) m =
        id m := by
    intro m hm
    simp [Int.ofNat_eq_coe]
  rw [List.map_congr_left h, List.map_id]

theorem anyHex_map_some (ms : List Nat) (hms : ∀ m ∈ ms, m < 65536) :
    (ms.map (fun m => some (Int.ofNat m))).any badHextet = false := by
  rw [List.any_eq_false]
  intro o ho
  rw [List.mem_map] at ho
  obtain ⟨m, hm, rfl⟩ := ho
  rw [badHextet_ofNat m (by have := hms m hm; omega)]
  simp

theorem hexTokens_map (ms : List Nat) :
    hexTokens (joinSep [':'] (ms.map (natToDigits 16))) =
      ms.map (fun m => some (Int.ofNat m)) := by
  rcases ms with _ | ⟨m, ms2⟩
  · rfl
  · exact hexTokens_eq _ (by simp)

theorem hasDC_mapJoin (ms : List Nat) :
    hasDC (joinSep [':'] (ms.map (natToDigits 16))) = false := by
  rcases ms with _ | ⟨m, ms2⟩
  · rfl
  · exact hasDC_joinSep _ (by simp)
      (fun t ht => by
        rw [List.mem_map] at ht
        obtain ⟨x, hx, rfl⟩ := ht
        have h := natToDigits_token 16 x (by norm_num) (by norm_num)
        exact ⟨h.1, fun c hc => (h.2 c hc).1⟩)

theorem joinSep_map_getLast (ms : List Nat) :
    ∀ x, (joinSep [':'] (ms.map (natToDigits 16))).getLast? = some x → x ≠ ':' := by
  intro x hx
  rcases ms with _ | ⟨m, ms2⟩
  · simp [joinSep] at hx
  · obtain ⟨t, ht, hteq⟩ := joinSep_getLast? [':'] ((m :: ms2).map (natToDigits 16))
      (by simp)
      (fun t ht => by
        rw [List.mem_map] at ht
        obtain ⟨y, hy, rfl⟩ := ht
        exact (natToDigits_token 16 y (by norm_num) (by norm_num)).1)
    rw [hteq] at hx
    have hne : t ≠ [] := by
      rw [List.mem_map] at ht
      obtain ⟨y, hy, rfl⟩ := ht
      exact (natToDigits_token 16 y (by norm_num) (by norm_num)).1
    rw [List.getLast?_eq_getLast t hne, Option.some.injEq] at hx
    have hmem : x ∈ t := hx ▸ List.getLast_mem hne
    rw [List.mem_map] at ht
    obtain ⟨y, hy, rfl⟩ := ht
    intro hcol
    exact ((natToDigits_token 16 y (by norm_num) (by norm_num)).2 x hmem).1 hcol

/-- The IPv6 renderer and parser are mutually inverse on 128-bit
values. -/
theorem parseIPv6_renderIPv6 (v : Nat) (hv : v < 2 ^ 128) :
    parseIPv6 (renderIPv6 v) = .ok v := by
  have hlen8 : (hexGroups v).length = 8 := rfl
  have hgsne : hexGroups v ≠ [] := by simp [hexGroups]
  have htok_all : ∀ t ∈ (hexGroups v).map (natToDigits 16),
      t ≠ [] ∧ ∀ c ∈ t, c ≠ ':' ∧ c ≠ '.' := by
    intro t ht
    rw [List.mem_map] at ht
    obtain ⟨m, hm, rfl⟩ := ht
    exact natToDigits_token 16 m (by norm_num) (by norm_num)
  rcases hbr : bestRun (hexGroups v) with _ | ⟨i, k⟩
  · unfold renderIPv6
    simp only [hbr]
    have hDC : hasDC (joinSep [':'] ((hexGroups v).map (natToDigits 16))) = false :=
      hasDC_joinSep _ (by simpa using hgsne)
        (fun t ht => ⟨(htok_all t ht).1, fun c hc => ((htok_all t ht).2 c hc).1⟩)
    have hsplit : splitDC (joinSep [':'] ((hexGroups v).map (natToDigits 16))) =
        [joinSep [':'] ((hexGroups v).map (natToDigits 16))] := splitDC_of_no _ hDC
    have hstart : hexStartOf (joinSep [':'] ((hexGroups v).map (natToDigits 16))) =
        (hexGroups v).map (fun m => some (Int.ofNat m)) := by
      unfold hexStartOf
      rw [hsplit]
      exact hexTokens_map (hexGroups v)
    have hend : hexEndOf (joinSep [':'] ((hexGroups v).map (natToDigits 16))) = [] := by
      unfold hexEndOf
      rw [hsplit]
      rfl
    have hplen : ((splitDC (joinSep [':']
        ((hexGroups v).map (natToDigits 16)))).take 2).length = 1 := by
      rw [hsplit]
      rfl
    simp only [parseIPv6, hstart, hend, hplen,
      anyHex_map_some (hexGroups v) (hexGroups_lt v), List.any_nil,
      List.length_map, hlen8, List.length_nil, toNat_map_some, List.map_nil,
      Bool.or_false, Bool.false_or]
    norm_num
    rw [hexGroups_foldl v hv]
  · obtain ⟨hk2, hkr, hik⟩ := zeroRuns_props (hexGroups v) i k (bestRun_mem _ _ hbr)
    rw [hlen8] at hik
    unfold renderIPv6
    simp only [hbr]
    rw [← List.map_take, ← List.map_drop]
    have hmsT : ∀ m ∈ (hexGroups v).take i, m < 65536 :=
      fun m hm => hexGroups_lt v m (List.mem_of_mem_take hm)
    have hmsD : ∀ m ∈ (hexGroups v).drop (i + k), m < 65536 :=
      fun m hm => hexGroups_lt v m (List.mem_of_mem_drop hm)
    have hsplit : splitDC
        (joinSep [':'] (((hexGroups v).take i).map (natToDigits 16)) ++
          ':' :: ':' :: joinSep [':'] (((hexGroups v).drop (i + k)).map (natToDigits 16))) =
        [joinSep [':'] (((hexGroups v).take i).map (natToDigits 16)),
         joinSep [':'] (((hexGroups v).drop (i + k)).map (natToDigits 16))] := by
      rw [splitDC_append _ _ (hasDC_mapJoin _) (joinSep_map_getLast _),
        splitDC_of_no _ (hasDC_mapJoin _)]
    have hstart : hexStartOf
        (joinSep [':'] (((hexGroups v).take i).map (natToDigits 16)) ++
          ':' :: ':' :: joinSep [':'] (((hexGroups v).drop (i + k)).map (natToDigits 16))) =
        ((hexGroups v).take i).map (fun m => some (Int.ofNat m)) := by
      unfold hexStartOf
      rw [hsplit]
      exact hexTokens_map _
    have hend : hexEndOf
        (joinSep [':'] (((hexGroups v).take i).map (natToDigits 16)) ++
          ':' :: ':' :: joinSep [':'] (((hexGroups v).drop (i + k)).map (natToDigits 16))) =
        ((hexGroups v).drop (i + k)).map (fun m => some (Int.ofNat m)) := by
      unfold hexEndOf
      rw [hsplit]
      exact hexTokens_map _
    have hplen : ((splitDC
        (joinSep [':'] (((hexGroups v).take i).map (natToDigits 16)) ++
          ':' :: ':' :: joinSep [':'] (((hexGroups v).drop (i + k)).map (natToDigits 16)))).take 2).length = 2 := by
      rw [hsplit]
      rfl
    have hstL : (((hexGroups v).take i).map (fun m => some (Int.ofNat m))).length = i := by
      rw [List.length_map, List.length_take, hlen8]
      omega
    have henL : (((hexGroups v).drop (i + k)).map (fun m => some (Int.ofNat m))).length =
        8 - (i + k) := by
      rw [List.length_map, List.length_drop, hlen8]
    have hd6 : decide (6 < i + (8 - (i + k))) = false :=
      decide_eq_false (by omega)
    simp only [parseIPv6, hstart, hend, hplen, hstL, henL,
      anyHex_map_some _ hmsT, anyHex_map_some _ hmsD, toNat_map_some, hd6,
      List.length_take, List.length_drop, hlen8,
      Nat.min_eq_left (show i ≤ 8 by omega),
      show decide ((2 : Nat) < 2) = false from rfl,
      Bool.or_false, Bool.false_or, Bool.and_false, Bool.false_and,
      Bool.or_self]
    rw [show (8 : Nat) - i - (8 - (i + k)) = k from by omega]
    rw [List.append_assoc, ← gs_decomp (hexGroups v) i k hkr]
    norm_num
    rw [hexGroups_foldl v hv]

theorem colon_mem_joinSep2 (t1 t2 : List Char) (ts : List (List Char)) :
    ':' ∈ joinSep [':'] (t1 :: t2 :: ts) := by
  rw [joinSep_cons2]
  exact List.mem_append.mpr (Or.inl (List.mem_append.mpr (Or.inr (by simp))))

theorem renderIPv6_has_colon (v : Nat) : ':' ∈ renderIPv6 v := by
  unfold renderIPv6
  rcases hbr : bestRun (hexGroups v) with _ | r
  · simp only [hbr]
    exact colon_mem_joinSep2 _ _ _
  · simp only [hbr]
    exact List.mem_append.mpr (Or.inr (List.mem_cons_self _ _))

/-- C6: for every valid address (IPv4 with a 32-bit value or IPv6 with
a 128-bit value), parsing the canonical text rendering round-trips to
the same family and value: `fromString(a.toString()) == a`. -/
theorem fromString_toString_roundtrip (f : Fam) (v : Nat)
    (hv : v < 2 ^ f.bitLength) : parseIP (renderIP f v) = .ok (f, v) := by
  cases f with
  | v4 =>
    have hnc : ':' ∉ renderIPv4 v := by
      intro hc
      rcases mem_joinSep _ _ _ hc with h | ⟨t, ht, hct⟩
      · simp at h
      · rw [List.mem_map] at ht
        obtain ⟨m, hm, rfl⟩ := ht
        exact ((natToDigits_token 10 m (by norm_num) (by norm_num)).2 ':' hct).1 rfl
    show parseIP (renderIPv4 v) = .ok (Fam.v4, v)
    unfold parseIP
    rw [if_neg hnc, parseIPv4_renderIPv4 v hv]
    rfl
  | v6 =>
    show parseIP (renderIPv6 v) = .ok (Fam.v6, v)
    unfold parseIP
    rw [if_pos (renderIPv6_has_colon v), parseIPv6_renderIPv6 v hv]
    rfl

theorem fromString_toString_roundtrip_witness :
    ((3 : Nat) < 2 ^ Fam.v4.bitLength ∧
      parseIP (renderIP Fam.v4 3) = .ok (Fam.v4, 3)) ∧
    ((2 ^ 112 + 2 : Nat) < 2 ^ Fam.v6.bitLength ∧
      parseIP (renderIP Fam.v6 (2 ^ 112 + 2)) = .ok (Fam.v6, 2 ^ 112 + 2)) :=
  ⟨⟨by norm_num [Fam.bitLength], fromString_toString_roundtrip Fam.v4 3
      (by norm_num [Fam.bitLength])⟩,
   ⟨by norm_num [Fam.bitLength], fromString_toString_roundtrip Fam.v6 (2 ^ 112 + 2)
      (by norm_num [Fam.bitLength])⟩⟩

/-- C7 counterexample: the claim fails in both directions.  A string
with 7 explicit groups and one `::` (8 groups in total) is rejected,
because the code limits the explicit groups to 6 whenever `::` is
present; and a string with two `::` tokens parses successfully, because
`split("::", 2)` silently truncates everything after the second `::`
(`"1::2::3"` parses as `1::2`). -/
theorem parseIPv6_dcolon_counterexample :
    parseIPv6 ("1:2:3:4:5:6:7::".toList) = .error .rangeError ∧
    parseIPv6 ("1::2::3".toList) = .ok (2 ^ 112 + 2) :=
  ⟨rfl, rfl⟩

theorem badHextet_false_iff (o : Option Int) :
    badHextet o = false ↔ ∃ m : Nat, o = some (Int.ofNat m) ∧ m ≤ 65535 := by
  rcases o with _ | z
  · constructor
    · intro h
      exact absurd h (by simp [badHextet])
    · rintro ⟨m, hm, -⟩
      exact absurd hm (by simp)
  · simp only [badHextet, Bool.or_eq_false_iff, decide_eq_false_iff_not,
      Int.not_lt, Option.some.injEq, Int.ofNat_eq_coe]
    constructor
    · rintro ⟨h0, h65⟩
      refine ⟨z.toNat, ?_, by omega⟩
      omega
    · rintro ⟨m, rfl, hm⟩
      constructor <;> omega

/-- C7 amended: for every input containing `"::"` (even more than
once — everything after the second occurrence is silently dropped by
`split("::", 2)`), parsing succeeds exactly when every parsed hextet of
both retained sides is a number in `0x0..0xFFFF` and the two sides
together have at most 6 explicit hextets (so a string with 7 explicit
groups plus `::` is rejected even though it denotes 8 groups). -/
theorem parseIPv6_dcolon_iff (s : List Char) (h2 : 2 ≤ (splitDC s).length) :
    (∃ v, parseIPv6 s = .ok v) ↔
      ((∀ o ∈ hexStartOf s, ∃ m : Nat, o = some (Int.ofNat m) ∧ m ≤ 65535) ∧
       (∀ o ∈ hexEndOf s, ∃ m : Nat, o = some (Int.ofNat m) ∧ m ≤ 65535) ∧
       (hexStartOf s).length + (hexEndOf s).length ≤ 6) := by
  have hplen2 : ((splitDC s).take 2).length = 2 := by
    rw [List.length_take]
    omega
  simp only [parseIPv6, hplen2,
    show decide ((2 : Nat) = 2) = true from rfl,
    show decide ((2 : Nat) < 2) = false from rfl,
    show (decide True) = true from rfl,
    show (decide False) = false from rfl,
    Bool.true_and, Bool.false_and, Bool.or_false]
  constructor
  · rintro ⟨v, hv⟩
    by_cases hc : ((hexStartOf s).any badHextet || (hexEndOf s).any badHextet ||
        decide (6 < (hexStartOf s).length + (hexEndOf s).length)) = true
    · rw [if_pos hc] at hv
      exact absurd hv (by simp)
    · rw [Bool.not_eq_true, Bool.or_eq_false_iff, Bool.or_eq_false_iff] at hc
      obtain ⟨⟨hS, hE⟩, h6⟩ := hc
      refine ⟨?_, ?_, ?_⟩
      · intro o ho
        have h := List.any_eq_false.mp hS o ho
        rw [Bool.not_eq_true] at h
        exact (badHextet_false_iff o).mp h
      · intro o ho
        have h := List.any_eq_false.mp hE o ho
        rw [Bool.not_eq_true] at h
        exact (badHextet_false_iff o).mp h
      · rw [decide_eq_false_iff_not] at h6
        omega
  · rintro ⟨hS, hE, h6⟩
    have hc : ((hexStartOf s).any badHextet || (hexEndOf s).any badHextet ||
        decide (6 < (hexStartOf s).length + (hexEndOf s).length)) = false := by
      rw [Bool.or_eq_false_iff, Bool.or_eq_false_iff]
      refine ⟨⟨?_, ?_⟩, decide_eq_false (by omega)⟩
      · rw [List.any_eq_false]
        intro o ho
        rw [Bool.not_eq_true]
        exact (badHextet_false_iff o).mpr (hS o ho)
      · rw [List.any_eq_false]
        intro o ho
        rw [Bool.not_eq_true]
        exact (badHextet_false_iff o).mpr (hE o ho)
    rw [hc, if_neg (by simp)]
    exact ⟨_, rfl⟩

theorem parseIPv6_dcolon_iff_witness :
    2 ≤ (splitDC ("1::2".toList)).length ∧
      ((∃ v, parseIPv6 ("1::2".toList) = .ok v) ↔
        ((∀ o ∈ hexStartOf ("1::2".toList),
            ∃ m : Nat, o = some (Int.ofNat m) ∧ m ≤ 65535) ∧
         (∀ o ∈ hexEndOf ("1::2".toList),
            ∃ m : Nat, o = some (Int.ofNat m) ∧ m ≤ 65535) ∧
         (hexStartOf ("1::2".toList)).length +
           (hexEndOf ("1::2".toList)).length ≤ 6)) :=
  ⟨by decide, parseIPv6_dcolon_iff _ (by decide)⟩

/-- C8 counterexample: strings that are not strictly 4 dot-separated
decimal octets still parse successfully instead of failing.
`"1.2.3.4.5"` has 5 fields, but `split(".", 4)` keeps only the first 4
and the parser returns 1.2.3.4; `"1.2.3.4junk"` has trailing garbage,
but `parseInt` ignores everything after the longest digit prefix. -/
theorem parseIPv4_extra_fields_counterexample :
    parseIPv4 ("1.2.3.4.5".toList) = .ok 16909060 ∧
    parseIPv4 ("1.2.3.4junk".toList) = .ok 16909060 :=
  ⟨rfl, rfl⟩

theorem badOctet_false_iff (o : Option Int) :
    badOctet o = false ↔ ∃ m : Nat, o = some (Int.ofNat m) ∧ m ≤ 255 := by
  rcases o with _ | z
  · constructor
    · intro h
      exact absurd h (by simp [badOctet])
    · rintro ⟨m, hm, -⟩
      exact absurd hm (by simp)
  · simp only [badOctet, Bool.or_eq_false_iff, decide_eq_false_iff_not,
      Int.not_lt, Option.some.injEq, Int.ofNat_eq_coe]
    constructor
    · rintro ⟨h0, h255⟩
      refine ⟨z.toNat, ?_, by omega⟩
      omega
    · rintro ⟨m, rfl, hm⟩
      constructor <;> omega

theorem octetsToValue_err (l : List Nat) (h : l.length ≠ 4) :
    octetsToValue l = .error .rangeError := by
  rcases l with _ | ⟨a, _ | ⟨b, _ | ⟨c, _ | ⟨d, _ | ⟨e, l5⟩⟩⟩⟩⟩ <;>
    first
      | rfl
      | simp at h

theorem octetsToValue_ok (l : List Nat) (h : l.length = 4) :
    ∃ w, octetsToValue l = .ok w := by
  rcases l with _ | ⟨a, _ | ⟨b, _ | ⟨c, _ | ⟨d, _ | ⟨e, l5⟩⟩⟩⟩⟩ <;>
    first
      | exact ⟨_, rfl⟩
      | simp at h

/-- C8 amended: parsing succeeds exactly when the first four
dot-fields (later fields are silently discarded by `split(".", 4)`)
each `parseInt` to a number in `0..255` and there are exactly 4 of
them; a field only needs a valid digit prefix, so trailing garbage
inside or after the fourth field is accepted too. -/
theorem parseIPv4_iff (s : List Char) :
    (∃ v, parseIPv4 s = .ok v) ↔
      (((splitChar '.' s).take 4).length = 4 ∧
       ∀ t ∈ (splitChar '.' s).take 4,
         ∃ m : Nat, jsParseInt 10 t = some (Int.ofNat m) ∧ m ≤ 255) := by
  simp only [parseIPv4]
  constructor
  · rintro ⟨v, hv⟩
    by_cases hc : (((splitChar '.' s).take 4).map (jsParseInt 10)).any badOctet = true
    · rw [if_pos hc] at hv
      exact absurd hv (by simp)
    · rw [Bool.not_eq_true] at hc
      rw [if_neg (by rw [hc]; simp)] at hv
      have hall : ∀ t ∈ (splitChar '.' s).take 4,
          ∃ m : Nat, jsParseInt 10 t = some (Int.ofNat m) ∧ m ≤ 255 := by
        intro t ht
        have hmem : jsParseInt 10 t ∈ (((splitChar '.' s).take 4).map (jsParseInt 10)) :=
          List.mem_map.mpr ⟨t, ht, rfl⟩
        have h := List.any_eq_false.mp hc _ hmem
        rw [Bool.not_eq_true] at h
        exact (badOctet_false_iff _).mp h
      refine ⟨?_, hall⟩
      by_contra hlen
      rw [octetsToValue_err _ (by simpa using hlen)] at hv
      exact absurd hv (by simp)
  · rintro ⟨hlen, hall⟩
    have hc : (((splitChar '.' s).take 4).map (jsParseInt 10)).any badOctet = false := by
      rw [List.any_eq_false]
      intro o ho
      rw [List.mem_map] at ho
      obtain ⟨t, ht, rfl⟩ := ho
      rw [Bool.not_eq_true]
      exact (badOctet_false_iff _).mpr (hall t ht)
    obtain ⟨w, hw⟩ := octetsToValue_ok
      ((((splitChar '.' s).take 4).map (jsParseInt 10)).map (fun o => (o.getD 0).toNat))
      (by simpa using hlen)
    refine ⟨w, ?_⟩
    rw [if_neg (by rw [hc]; simp), hw]

end IPLib
